import Mathlib

/-!
Verification of the query-planning and execution core of a small RDBMS
(files `src/optimizer/planner.cpp` and `src/execution/execution_manager.cpp`).
The planner data model (conditions, plan trees, catalog index metadata) and
the planner algorithms (`get_index_cols`, `pop_conds`, `pop_scan`,
`push_conds`, `make_one_rel`) are embedded as executable Lean functions, as
are the utility-command dispatcher and the result formatter of the
execution manager.  Theorems below settle the specification claims about
index-prefix matching, join-tree shape, predicate conservation, join-knob
dispatch, sort-merge children, condition swapping, `pop_conds` filtering,
the `ShowIndex` fallthrough, and the `output.txt` format.
-/

namespace DB2024

/-- Comparison operators of a WHERE-clause conjunct (`CompOp` in the source). -/
inductive CompOp
  | eq | ne | lt | gt | le | ge
deriving DecidableEq

/-- A table-qualified column reference (`TabCol` in the source). -/
structure TabCol where
  tab : String
  col : String
deriving DecidableEq

/-- One conjunct of a WHERE clause (`Condition` in the source): a lhs column, a
comparison operator, and either a literal rhs value (`is_rhs_val = true`,
value modelled as an integer the planner never inspects) or a rhs column.
A value conjunct carries the default-constructed rhs column `⟨"", ""⟩`. -/
structure Condition where
  lhs_col : TabCol
  op : CompOp
  is_rhs_val : Bool
  rhs_col : TabCol
  rhs_val : Int
deriving DecidableEq

/-- Scan plan tags (`T_SeqScan` / `T_IndexScan`). -/
inductive ScanTag
  | seqScan | indexScan
deriving DecidableEq

/-- Join plan tags (`T_NestLoop` / `T_SortMerge`). -/
inductive JoinTag
  | nestLoop | sortMerge
deriving DecidableEq

/-- The plan-tree nodes `make_one_rel` builds: `ScanPlan` (tag, table, fed
conditions, index columns), `JoinPlan` (tag, children, join conditions) and
`SortPlan` (child, sort columns, descending flag). -/
inductive Plan where
  | scan (tag : ScanTag) (tab : String) (conds : List Condition) (index_cols : List String)
  | join (tag : JoinTag) (left right : Plan) (conds : List Condition)
  | sort (child : Plan) (cols : List TabCol) (is_desc : Bool)
deriving DecidableEq

/-- The catalog fragment the planner consults: for each table name, the list
of its indexes, each index being its ordered column-name list
(`IndexMeta.cols` projected to names). -/
structure Catalog where
  indexes : String → List (List String)

/-- Membership test of the hash map `col_to_cond_map` built at the top of
`Planner::get_index_cols`: a column name is mapped iff some condition has a
literal rhs value and its lhs column belongs to the given table with that
column name. -/
def condColMatch (tab : String) (conds : List Condition) (colName : String) : Bool :=
  conds.any fun c => c.is_rhs_val && decide (c.lhs_col.tab = tab) && decide (c.lhs_col.col = colName)

/-- The leftmost-prefix match count of one index: the inner loop of
`get_index_cols` walks the index columns and stops at the first column not
found in the condition map. -/
def matchLen (f : String → Bool) : List String → Nat
  | [] => 0
  | c :: rest => if f c then matchLen f rest + 1 else 0

/-- The index-selection loop shared by `Planner::get_index_cols` and the
re-matching loop inside `Planner::pop_scan`: keep the index with the largest
match count seen so far (strict improvement only, so ties go to the first
encountered), return a fully matched index immediately, and at the end
return the best index (all of its columns) if its match count is positive. -/
def gicAux (f : String → Bool) : List (List String) → Nat → List String → Option (List String)
  | [], maxc, best => if maxc = 0 then none else some best
  | idx :: rest, maxc, best =>
    let mc := matchLen f idx
    if maxc < mc then
      if mc = idx.length then some idx else gicAux f rest mc idx
    else gicAux f rest maxc best

/-- `Planner::get_index_cols`: returns the column list of the selected index
of the table, or `none` when no index has a positive leftmost-prefix match
count against the value conditions on the table. -/
def get_index_cols (cat : Catalog) (tab : String) (conds : List Condition) : Option (List String) :=
  gicAux (condColMatch tab conds) (cat.indexes tab) 0 []

/-- The extraction test of `Planner::pop_conds`: a conjunct is popped for a
table when its lhs column is on that table and the rhs is a value, or when
its lhs and rhs columns name the same table. -/
def popPred (tab : String) (c : Condition) : Bool :=
  (decide (c.lhs_col.tab = tab) && c.is_rhs_val) || decide (c.lhs_col.tab = c.rhs_col.tab)

/-- `Planner::pop_conds`: walks the condition list, moving every condition
matched by `popPred` into the result (first component) and keeping the rest
(second component), both in their original relative order. -/
def pop_conds (tab : String) : List Condition → List Condition × List Condition
  | [] => ([], [])
  | c :: rest =>
    let r := pop_conds tab rest
    if popPred tab c then (c :: r.1, r.2) else (r.1, c :: r.2)

/-- The operator-inversion table (`swap_op` in the source):
EQ↔EQ, NE↔NE, LT↔GT, GT↔LT, LE↔GE, GE↔LE. -/
def swapOp : CompOp → CompOp
  | .eq => .eq
  | .ne => .ne
  | .lt => .gt
  | .gt => .lt
  | .le => .ge
  | .ge => .le

/-- The side swap performed by the planner before embedding a condition whose
already-joined side was on the right: exchange lhs and rhs columns and invert
the operator; the value fields are untouched. -/
def swapCond (c : Condition) : Condition :=
  { c with lhs_col := c.rhs_col, rhs_col := c.lhs_col, op := swapOp c.op }

/-- The table name of a scan plan node (`ScanPlan::tab_name_`). -/
def Plan.scanTab : Plan → String
  | .scan _ t _ _ => t
  | _ => ""

/-- Whether a plan node is a `ScanPlan` (the `dynamic_pointer_cast<ScanPlan>`
test). -/
def Plan.isScan : Plan → Bool
  | .scan .. => true
  | _ => false

/-- The index-upgrade step of `Planner::pop_scan`: an index scan is returned
unchanged; for a sequential scan the single join column is matched against
the table's indexes with the same selection loop as `get_index_cols`, and on
success a new `IndexScan` plan carrying the old fed conditions and the
selected index's columns is produced. -/
def upgrade_scan (cat : Catalog) (col : TabCol) (p : Plan) : Plan :=
  match p with
  | .scan .seqScan t cs ics =>
    match gicAux (fun n => decide (col.col = n)) (cat.indexes t) 0 [] with
    | some found => .scan .indexScan t cs found
    | none => .scan .seqScan t cs ics
  | other => other

/-- One slot of the planner's scan bookkeeping: the scan plan built for a
table (`table_scan_executors[i]`) together with its `scantbl[i] == 1` mark. -/
structure ScanEntry where
  plan : Plan
  marked : Bool
deriving DecidableEq

/-- The result of `Planner::pop_scan`: the (possibly index-upgraded) scan
found for the column's table, the updated `joined_tables` list and the
updated scan slots. -/
structure PopRes where
  found : Option Plan
  joined : List String
  entries : List ScanEntry
deriving DecidableEq

/-- `Planner::pop_scan`: find the first scan slot whose table matches the
column's table, mark it, append the table name to `joined_tables`, and
return the scan after the index-upgrade check; when no slot matches, return
`none` with everything unchanged. -/
def pop_scan (cat : Catalog) (col : TabCol) (joined : List String) : List ScanEntry → PopRes
  | [] => ⟨none, joined, []⟩
  | e :: rest =>
    if e.plan.scanTab = col.tab then
      ⟨some (upgrade_scan cat col e.plan), joined ++ [col.tab], ⟨e.plan, true⟩ :: rest⟩
    else
      let r := pop_scan cat col joined rest
      ⟨r.found, r.joined, e :: r.entries⟩

/-- The two join-strategy knobs `enable_nestedloop_join` and
`enable_sortmerge_join`. -/
structure Knobs where
  nestloop : Bool
  sortmerge : Bool
deriving DecidableEq

/-- The planner's thrown errors: `RMDBError("No join executor selected!")`
when both knobs are off, and `InternalError` for impossible plan shapes. -/
inductive PlanErr
  | config | internal
deriving DecidableEq

/-- The sort-merge child preparation in `make_one_rel`: a sequential scan is
wrapped in an ascending `SortPlan` on the join column, an index scan is used
as is, and any other child raises `InternalError`. -/
def sortWrap (p : Plan) (c : TabCol) : Option Plan :=
  match p with
  | .scan .seqScan t cs ics => some (.sort (.scan .seqScan t cs ics) [c] false)
  | .scan .indexScan t cs ics => some (.scan .indexScan t cs ics)
  | _ => none

/-- The knob dispatch building the first join of `make_one_rel`: both knobs
on or only nested-loop on gives a nested-loop join; only sort-merge on gives
a sort-merge join over `sortWrap`-prepared children; both off throws. -/
def firstJoin (k : Knobs) (left right : Plan) (c : Condition) : Except PlanErr Plan :=
  if k.nestloop && k.sortmerge then .ok (.join .nestLoop left right [c])
  else if k.nestloop then .ok (.join .nestLoop left right [c])
  else if k.sortmerge then
    match sortWrap left c.lhs_col, sortWrap right c.rhs_col with
    | some sl, some sr => .ok (.join .sortMerge sl sr [c])
    | _, _ => .error .internal
  else .error .config

/-- The free function `push_conds` of the planner: returns the tri-state code
(0 = no side matched, 1 = lhs matched, 2 = rhs matched, 3 = pushed) together
with the updated plan.  At a join it recurses left then right; when the left
result is 2 the condition is swapped before being appended to this join's
condition list.  A node that is neither a scan nor a join yields 0. -/
def push_conds (c : Condition) : Plan → Nat × Plan
  | .scan tg t cs ics =>
    if t = c.lhs_col.tab then (1, .scan tg t cs ics)
    else if t = c.rhs_col.tab then (2, .scan tg t cs ics)
    else (0, .scan tg t cs ics)
  | .join tg l r cs =>
    if (push_conds c l).1 = 3 then (3, .join tg (push_conds c l).2 r cs)
    else if (push_conds c r).1 = 3 then (3, .join tg l (push_conds c r).2 cs)
    else if (push_conds c l).1 = 0 ∨ (push_conds c r).1 = 0 then
      ((push_conds c l).1 + (push_conds c r).1, .join tg l r cs)
    else if (push_conds c l).1 = 2 then (3, .join tg l r (cs ++ [swapCond c]))
    else (3, .join tg l r (cs ++ [c]))
  | .sort ch cols d => (0, .sort ch cols d)

/-- The running state of the second join loop of `make_one_rel`: the join
tree built so far, the `joined_tables` list and the scan slots. -/
structure BuildSt where
  tree : Plan
  joined : List String
  entries : List ScanEntry
deriving DecidableEq

/-- The guarded scan pop of the second while loop of `make_one_rel`: a side
whose table is already in `joined_tables` is not popped. -/
def popIfNew (cat : Catalog) (col : TabCol) (joined : List String) (es : List ScanEntry) : PopRes :=
  if col.tab ∈ joined then ⟨none, joined, es⟩ else pop_scan cat col joined es

/-- The dispatch on the two pop results of one iteration of the second while
loop of `make_one_rel`: with both popped, join them and put that subtree
above the running tree with no condition; with exactly one popped, make it
the left input of a nested-loop join over the running tree, the condition
swapped when the popped side was the rhs; with none popped, push the
condition into the tree. -/
def joinStep3 (st : BuildSt) (c : Condition) (r1 r2 : PopRes) : BuildSt :=
  match r1.found, r2.found with
  | some l, some r =>
    ⟨.join .nestLoop (.join .nestLoop l r [c]) st.tree [], r2.joined, r2.entries⟩
  | some l, none => ⟨.join .nestLoop l st.tree [c], r2.joined, r2.entries⟩
  | none, some r => ⟨.join .nestLoop r st.tree [swapCond c], r2.joined, r2.entries⟩
  | none, none => ⟨(push_conds c st.tree).2, r2.joined, r2.entries⟩

/-- The second pop (rhs side) of one loop iteration, checked against the
`joined_tables` list as left by the first pop. -/
def joinStep2 (cat : Catalog) (st : BuildSt) (c : Condition) (r1 : PopRes) : BuildSt :=
  joinStep3 st c r1 (popIfNew cat c.rhs_col r1.joined r1.entries)

/-- One iteration of the second while loop of `make_one_rel`. -/
def joinStep (cat : Catalog) (st : BuildSt) (c : Condition) : BuildSt :=
  joinStep2 cat st c (popIfNew cat c.lhs_col st.joined st.entries)

/-- The trailing loop of `make_one_rel`: every scan slot still unmarked is
attached as the right child of a nested-loop join with no condition. -/
def leftoverJoins : Plan → List ScanEntry → Plan
  | t, [] => t
  | t, e :: rest => leftoverJoins (if e.marked then t else .join .nestLoop t e.plan []) rest

/-- The `scantbl[0] = 1` assignment of the no-join-condition branch of
`make_one_rel`: mark the first scan slot. -/
def markFirst : List ScanEntry → List ScanEntry
  | [] => []
  | e :: rest => ⟨e.plan, true⟩ :: rest

/-- The scan construction of the first loop of `make_one_rel`: an `IndexScan`
carrying the columns found by `get_index_cols`, else a `SeqScan` with an
empty index-column list; either way the scan is fed the popped conditions. -/
def scanForTable (cat : Catalog) (tab : String) (conds : List Condition) : Plan :=
  match get_index_cols cat tab conds with
  | some ics => .scan .indexScan tab conds ics
  | none => .scan .seqScan tab conds []

/-- The first loop of `make_one_rel`: for each table in order, pop its
conditions out of the remaining list and build its scan; returns the scans
and the conditions left over (the cross-table join conditions). -/
def buildScans (cat : Catalog) : List String → List Condition → List Plan × List Condition
  | [], conds => ([], conds)
  | t :: rest, conds =>
    let pc := pop_conds t conds
    let p := scanForTable cat t pc.1
    let r := buildScans cat rest pc.2
    (p :: r.1, r.2)

/-- The tail of `make_one_rel` once the first join tree is built: run the
second while loop over the remaining conditions and attach leftover scans. -/
def afterFirstJoin (cat : Catalog) (rest : List Condition) (st : BuildSt) : Plan :=
  leftoverJoins (rest.foldl (joinStep cat) st).tree (rest.foldl (joinStep cat) st).entries

/-- The continuation of `make_one_rel` after the knob dispatch built (or
failed to build) the first join. -/
def make_one_rel_built (cat : Catalog) (rest : List Condition) (j2 : List String)
    (e2 : List ScanEntry) : Except PlanErr Plan → Except PlanErr Plan
  | .error e => .error e
  | .ok t0 => .ok (afterFirstJoin cat rest ⟨t0, j2, e2⟩)

/-- The continuation of `make_one_rel` after the second scan pop of the first
condition: a missing scan is the crash of dereferencing a null plan. -/
def make_one_rel_found3 (cat : Catalog) (k : Knobs) (c : Condition) (rest : List Condition)
    (l : Plan) (j2 : List String) (e2 : List ScanEntry) : Option Plan → Except PlanErr Plan
  | none => .error .internal
  | some r => make_one_rel_built cat rest j2 e2 (firstJoin k l r c)

/-- Projection step feeding the second pop result of the first condition into
`make_one_rel_found3`. -/
def make_one_rel_pop2 (cat : Catalog) (k : Knobs) (c : Condition) (rest : List Condition)
    (l : Plan) (r2 : PopRes) : Except PlanErr Plan :=
  make_one_rel_found3 cat k c rest l r2.joined r2.entries r2.found

/-- The continuation of `make_one_rel` after the first scan pop of the first
condition: pop the rhs side next. -/
def make_one_rel_found1 (cat : Catalog) (k : Knobs) (c : Condition) (rest : List Condition)
    (j1 : List String) (e1 : List ScanEntry) : Option Plan → Except PlanErr Plan
  | none => .error .internal
  | some l => make_one_rel_pop2 cat k c rest l (pop_scan cat c.rhs_col j1 e1)

/-- Projection step feeding the first pop result of the first condition into
`make_one_rel_found1`. -/
def make_one_rel_pop1 (cat : Catalog) (k : Knobs) (c : Condition) (rest : List Condition)
    (r1 : PopRes) : Except PlanErr Plan :=
  make_one_rel_found1 cat k c rest r1.joined r1.entries r1.found

/-- The body of `make_one_rel` on the result of the scan-building loop:
no scans means no tables; a single table returns its scan directly; with no
remaining condition the first scan seeds the tree (`scantbl[0] = 1`) and the
leftover loop attaches the rest; otherwise the first condition builds the
first join (`joined_tables` starts as `tables.length` empty strings) and the
remaining conditions are processed by `joinStep`. -/
def make_one_rel_core (cat : Catalog) (k : Knobs) (tables : List String) :
    List Plan × List Condition → Except PlanErr Plan
  | ([], _) => .error .internal
  | (s0 :: srest, []) =>
    if tables.length = 1 then .ok s0
    else .ok (leftoverJoins s0 (markFirst ((s0 :: srest).map fun q => ⟨q, false⟩)))
  | (s0 :: srest, c :: rest) =>
    if tables.length = 1 then .ok s0
    else make_one_rel_pop1 cat k c rest
      (pop_scan cat c.lhs_col (List.replicate tables.length "")
        ((s0 :: srest).map fun q => ⟨q, false⟩))

/-- `Planner::make_one_rel`, with the global join knobs passed explicitly.
A thrown exception is modelled as an `Except.error`. -/
def make_one_rel (cat : Catalog) (k : Knobs) (tables : List String)
    (conds0 : List Condition) : Except PlanErr Plan :=
  make_one_rel_core cat k tables (buildScans cat tables conds0)

/-- The multiset of all conditions attached anywhere in a plan: fed
conditions of scans plus condition lists of joins. -/
def planCondsMul : Plan → Multiset Condition
  | .scan _ _ cs _ => (cs : Multiset Condition)
  | .join _ l r cs => planCondsMul l + planCondsMul r + (cs : Multiset Condition)
  | .sort ch _ _ => planCondsMul ch

/-- The list of tables scanned anywhere in a plan, left to right. -/
def planTabs : Plan → List String
  | .scan _ t _ _ => [t]
  | .join _ l r _ => planTabs l ++ planTabs r
  | .sort ch _ _ => planTabs ch

/-- Whether a plan tree consists only of nested-loop joins over scans. -/
def nlOnly : Plan → Bool
  | .scan .. => true
  | .join .nestLoop l r _ => nlOnly l && nlOnly r
  | .join .sortMerge _ _ _ => false
  | .sort .. => false

/-- The number of sort-merge join nodes in a plan. -/
def countSM : Plan → Nat
  | .scan .. => 0
  | .join .sortMerge l r _ => countSM l + countSM r + 1
  | .join .nestLoop l r _ => countSM l + countSM r
  | .sort ch _ _ => countSM ch

/-- Whether a plan contains a join node with the given tag. -/
def hasJoinTag : Plan → JoinTag → Bool
  | .scan .., _ => false
  | .join tg l r _, q => decide (tg = q) || hasJoinTag l q || hasJoinTag r q
  | .sort ch _ _, q => hasJoinTag ch q

/-- The admissible child of a sort-merge join on its join column: a sort
plan whose sort-column list is exactly that column, or an index scan. -/
def smChildOk (c : TabCol) : Plan → Bool
  | .scan .indexScan _ _ _ => true
  | .sort _ cols _ => decide (cols = [c])
  | _ => false

/-- Every sort-merge join node in the plan has a nonempty condition list and
children admissible on the lhs and rhs columns of its first condition. -/
def smOk : Plan → Bool
  | .scan .. => true
  | .sort ch _ _ => smOk ch
  | .join .nestLoop l r _ => smOk l && smOk r
  | .join .sortMerge l r cs =>
    (match cs with
     | chead :: _ => smChildOk chead.lhs_col l && smChildOk chead.rhs_col r
     | [] => false) && smOk l && smOk r

/-- The table names of the scan slots, in order. -/
def entryTabs (es : List ScanEntry) : List String := es.map fun e => e.plan.scanTab

/-- The conditions fed to the scans of all unmarked slots. -/
def unmarkedMul (es : List ScanEntry) : Multiset Condition :=
  (es.map fun e => if e.marked then (0 : Multiset Condition) else planCondsMul e.plan).sum

/-- A plan condition corresponds to a starting conjunct either verbatim or
through the planner's side swap. -/
def eqOrSwap (a b : Condition) : Prop := b = a ∨ b = swapCond a

/-- Well-formedness of one cross-table join condition with respect to the
query's table list. -/
def wfCond (tables : List String) (c : Condition) : Prop :=
  c.lhs_col.tab ∈ tables ∧ c.rhs_col.tab ∈ tables ∧ c.lhs_col.tab ≠ c.rhs_col.tab

/-- Well-formedness of the analyzed WHERE conjuncts: every lhs column names a
query table and every column-column conjunct's rhs names a query table. -/
def wfConds (tables : List String) (conds : List Condition) : Prop :=
  ∀ c ∈ conds, c.lhs_col.tab ∈ tables ∧ (c.is_rhs_val = false → c.rhs_col.tab ∈ tables)

/-- The invariant of the second join loop of `make_one_rel`: all slots hold
scans whose tables are the query tables; a slot is marked exactly when its
table is in `joined_tables`; a table appears in the tree exactly when it is
joined; the tree's scans are distinct query tables; and the tree is built
from nested-loop joins over scans. -/
def INV (tables : List String) (st : BuildSt) : Prop :=
  (∀ e ∈ st.entries, e.plan.isScan = true) ∧
  entryTabs st.entries = tables ∧
  (∀ e ∈ st.entries, e.marked = true ↔ e.plan.scanTab ∈ st.joined) ∧
  (∀ T ∈ tables, (T ∈ planTabs st.tree ↔ T ∈ st.joined)) ∧
  (planTabs st.tree).Nodup ∧
  (∀ T ∈ planTabs st.tree, T ∈ tables) ∧
  nlOnly st.tree = true

/-- Column metadata as the result formatter uses it: the declared byte offset
and byte width (`ColMeta::offset` / `ColMeta::len`). -/
structure ColMeta where
  offset : Nat
  len : Nat
deriving DecidableEq

/-- The read start positions of the no-aggregate branch of
`QlManager::select_from`: each column is read at `Tuple->data + col.offset`,
while the local `cols_offset` accumulator is advanced by `col.offset` but
never used for a read. -/
def noAggReadPos : List ColMeta → Nat → List Nat
  | [], _ => []
  | col :: rest, cols_offset => col.offset :: noAggReadPos rest (cols_offset + col.offset)

/-- The read start positions of the with-aggregate branch of
`QlManager::select_from`: each column is read at `Tuple->data + cols_offset`
and the accumulator is advanced by `col.len`. -/
def aggReadPos : List ColMeta → Nat → List Nat
  | [], _ => []
  | col :: rest, cols_offset => cols_offset :: aggReadPos rest (cols_offset + col.len)

/-- Modelled from the spec: the read positions the claim asserts for the
no-aggregate branch, namely the cumulative sum of the offsets of the
preceding columns ("advances its read cursor by col.offset each
iteration"). -/
def cumOffsetPos : List ColMeta → Nat → List Nat
  | [], _ => []
  | col :: rest, acc => acc :: cumOffsetPos rest (acc + col.offset)

/-- The utility-plan tags dispatched by `QlManager::run_cmd_utility`. -/
inductive UtilTag
  | help | showTable | showIndex | descTable | txnBegin | txnCommit | txnRollback | txnAbort
deriving DecidableEq

/-- The collaborator calls a utility case body performs. -/
inductive UtilAction
  | copyHelpInfo
  | showTables
  | showIndexs (tab : String)
  | descTable (tab : String)
  | setTxnMode (explicitTxn : Bool)
  | commitTxn
  | abortTxn
deriving DecidableEq

/-- The trace of collaborator calls made by the `OtherPlan` switch of
`QlManager::run_cmd_utility` for each tag.  The `T_ShowIndex` case has no
`break`, so control falls through into the `T_DescTable` case; every other
case ends with `break`.  `T_Transaction_rollback` and `T_Transaction_abort`
both call the transaction manager's abort. -/
def run_cmd_utility : UtilTag → String → List UtilAction
  | .help, _ => [.copyHelpInfo]
  | .showTable, _ => [.showTables]
  | .showIndex, tab => [.showIndexs tab, .descTable tab]
  | .descTable, tab => [.descTable tab]
  | .txnBegin, _ => [.setTxnMode true]
  | .txnCommit, _ => [.commitTxn]
  | .txnRollback, _ => [.abortTxn]
  | .txnAbort, _ => [.abortTxn]

/-- The record-printer calls `select_from` issues into the client buffer. -/
inductive BufEvent
  | separator
  | record (cells : List String)
  | recordCount (n : Nat)
deriving DecidableEq

/-- One pipe-delimited line written to `output.txt`: a bar, then one
space-padded cell followed by a bar per column, then a newline. -/
def fileLine (cells : List String) : String :=
  "|" ++ String.join (cells.map fun c => " " ++ c ++ " |") ++ "\n"

/-- The two sinks of `select_from`: the client buffer (record-printer events)
and the `output.txt` append stream (lines). -/
structure SelectOut where
  buffer : List BufEvent
  file : List String
deriving DecidableEq

/-- The per-tuple body of the result loop of `select_from`: print the record
into the buffer and append its line to the file. -/
def selectStep (acc : SelectOut) (row : List String) : SelectOut :=
  ⟨acc.buffer ++ [.record row], acc.file ++ [fileLine row]⟩

/-- The sink behaviour of `QlManager::select_from` as a function of the
caption list and the stringified result rows: separator, caption record and
separator into the buffer and the caption line into the file; then the
result loop; then the footer separator and the record count into the buffer
only. -/
def select_from_out (captions : List String) (rows : List (List String)) : SelectOut :=
  let afterRows := rows.foldl selectStep ⟨[.separator, .record captions, .separator], [fileLine captions]⟩
  ⟨afterRows.buffer ++ [.separator, .recordCount rows.length], afterRows.file⟩

deriving instance DecidableEq for Except

/-- Catalog with no indexes on any table. -/
def catNone : Catalog := ⟨fun _ => []⟩

/-- Catalog for the scenario table `t(a,b,c)` with one index on `(a,b)`. -/
def catAB : Catalog := ⟨fun t => if t = "t" then [["a", "b"]] else []⟩

/-- Catalog with a single-column index on `t(a)`. -/
def catA : Catalog := ⟨fun t => if t = "t" then [["a"]] else []⟩

/-- The conjunct `r.x = s.x`. -/
def cRS : Condition := ⟨⟨"r", "x"⟩, .eq, false, ⟨"s", "x"⟩, 0⟩

/-- The conjunct `s.y = u.y`. -/
def cSU : Condition := ⟨⟨"s", "y"⟩, .eq, false, ⟨"u", "y"⟩, 0⟩

/-- The conjunct `r.y = s.z`. -/
def cRS2 : Condition := ⟨⟨"r", "y"⟩, .eq, false, ⟨"s", "z"⟩, 0⟩

/-- The conjunct `a.j = b.j`. -/
def cAB : Condition := ⟨⟨"a", "j"⟩, .eq, false, ⟨"b", "j"⟩, 0⟩

/-- The conjunct `c.k = a.k`. -/
def cCA : Condition := ⟨⟨"c", "k"⟩, .eq, false, ⟨"a", "k"⟩, 0⟩

/-- The conjunct `t.a = 1`. -/
def condA1 : Condition := ⟨⟨"t", "a"⟩, .eq, true, ⟨"", ""⟩, 1⟩

/-- The conjunct `t.c = 3`. -/
def condC3 : Condition := ⟨⟨"t", "c"⟩, .eq, true, ⟨"", ""⟩, 3⟩

/-- The conjunct `t.a < 1`. -/
def condALt : Condition := ⟨⟨"t", "a"⟩, .lt, true, ⟨"", ""⟩, 1⟩

theorem pop_conds_eq_filter (tab : String) (conds : List Condition) :
    pop_conds tab conds = (conds.filter (popPred tab), conds.filter fun c => !popPred tab c) := by
  induction conds with
  | nil => rfl
  | cons c rest ih =>
    simp only [pop_conds, ih, List.filter_cons]
    cases h : popPred tab c <;> simp [h]

theorem foldl_selectStep (rows : List (List String)) :
    ∀ acc : SelectOut, rows.foldl selectStep acc =
      ⟨acc.buffer ++ rows.map BufEvent.record, acc.file ++ rows.map fileLine⟩ := by
  induction rows with
  | nil => intro acc; simp
  | cons r rest ih =>
    intro acc
    simp [selectStep, ih]

theorem noAggReadPos_eq_map (cols : List ColMeta) :
    ∀ acc : Nat, noAggReadPos cols acc = cols.map fun c => c.offset := by
  induction cols with
  | nil => intro acc; rfl
  | cons c rest ih => intro acc; simp [noAggReadPos, ih]

theorem aggReadPos_eq_sums (cols : List ColMeta) :
    ∀ acc : Nat, aggReadPos cols acc =
      (List.range cols.length).map fun i => acc + ((cols.take i).map fun c => c.len).sum := by
  induction cols with
  | nil => intro acc; rfl
  | cons c rest ih =>
    intro acc
    simp only [aggReadPos, ih (acc + c.len), List.length_cons, List.range_succ_eq_map,
      List.map_cons, List.map_map, List.take_zero, List.map_nil, List.sum_nil, Nat.add_zero,
      List.cons.injEq, true_and]
    apply List.map_congr_left
    intro i _
    simp [List.take_succ_cons, Nat.add_assoc]

theorem gicAux_isSome (f : String → Bool) (I : List (List String)) :
    ∀ (maxc : Nat) (best : List String),
      (gicAux f I maxc best).isSome = true ↔ (maxc ≠ 0 ∨ ∃ idx ∈ I, maxc < matchLen f idx) := by
  induction I with
  | nil => intro maxc best; by_cases h : maxc = 0 <;> simp [gicAux, h]
  | cons idx rest ih =>
    intro maxc best
    simp only [gicAux]
    by_cases h1 : maxc < matchLen f idx
    · rw [if_pos h1]
      by_cases h2 : matchLen f idx = idx.length
      · rw [if_pos h2]
        exact iff_of_true rfl (Or.inr ⟨idx, List.mem_cons_self idx rest, h1⟩)
      · rw [if_neg h2, ih]
        exact iff_of_true (Or.inl (by omega)) (Or.inr ⟨idx, List.mem_cons_self idx rest, h1⟩)
    · rw [if_neg h1, ih]
      constructor
      · rintro (h | ⟨j, hj, hlt⟩)
        · exact Or.inl h
        · exact Or.inr ⟨j, List.mem_cons_of_mem _ hj, hlt⟩
      · rintro (h | ⟨j, hj, hlt⟩)
        · exact Or.inl h
        · rcases List.mem_cons.mp hj with rfl | hj2
          · exact absurd hlt h1
          · exact Or.inr ⟨j, hj2, hlt⟩

theorem gicAux_some_mem (f : String → Bool) (I : List (List String)) :
    ∀ (maxc : Nat) (best : List String) (r : List String),
      gicAux f I maxc best = some r →
      (r = best ∧ maxc ≠ 0) ∨ ∃ idx ∈ I, r = idx ∧ 0 < matchLen f idx := by
  induction I with
  | nil =>
    intro maxc best r h
    by_cases h0 : maxc = 0
    · simp [gicAux, h0] at h
    · simp only [gicAux, if_neg h0, Option.some.injEq] at h
      exact Or.inl ⟨h.symm, h0⟩
  | cons idx rest ih =>
    intro maxc best r h
    simp only [gicAux] at h
    by_cases h1 : maxc < matchLen f idx
    · rw [if_pos h1] at h
      by_cases h2 : matchLen f idx = idx.length
      · rw [if_pos h2] at h
        have hr : idx = r := Option.some.inj h
        exact Or.inr ⟨idx, List.mem_cons_self idx rest, hr.symm, by omega⟩
      · rw [if_neg h2] at h
        rcases ih _ _ _ h with ⟨hr, _⟩ | ⟨j, hj, hr, hpos⟩
        · exact Or.inr ⟨idx, List.mem_cons_self idx rest, hr, by omega⟩
        · exact Or.inr ⟨j, List.mem_cons_of_mem _ hj, hr, hpos⟩
    · rw [if_neg h1] at h
      rcases ih _ _ _ h with hleft | ⟨j, hj, hr, hpos⟩
      · exact Or.inl hleft
      · exact Or.inr ⟨j, List.mem_cons_of_mem _ hj, hr, hpos⟩

/-- C1 (amended): `get_index_cols(T, C)` succeeds iff some index of `T` has a
non-empty leftmost prefix whose columns all appear in `C` as predicates with
`T`'s column on the lhs and a literal value on the rhs (any comparison
operator, not only equality); every successful result is the complete column
list of such an index (not the matched prefix); in particular, for `t(a,b,c)`
with an index on `(a,b)` and conditions `a=1 AND c=3` it returns
`index_cols=[a,b]`. -/
theorem c1_theorem :
    (∀ (cat : Catalog) (tab : String) (conds : List Condition),
      (get_index_cols cat tab conds).isSome = true ↔
        ∃ idx ∈ cat.indexes tab, 0 < matchLen (condColMatch tab conds) idx) ∧
    (∀ (cat : Catalog) (tab : String) (conds : List Condition) (r : List String),
      get_index_cols cat tab conds = some r →
        ∃ idx ∈ cat.indexes tab, r = idx ∧ 0 < matchLen (condColMatch tab conds) idx) ∧
    get_index_cols catAB "t" [condA1, condC3] = some ["a", "b"] := by
  refine ⟨?_, ?_, by decide⟩
  · intro cat tab conds
    rw [get_index_cols, gicAux_isSome]
    simp
  · intro cat tab conds r h
    rcases gicAux_some_mem _ _ _ _ _ h with ⟨_, h0⟩ | hmem
    · exact absurd rfl h0
    · exact hmem

/-- C1 witness: the general result-shape statement applied to the scenario
catalog. -/
theorem c1_witness :
    ∃ idx ∈ catAB.indexes "t",
      (["a", "b"] : List String) = idx ∧ 0 < matchLen (condColMatch "t" [condA1, condC3]) idx :=
  c1_theorem.2.1 catAB "t" [condA1, condC3] ["a", "b"] (by decide)

/-- C1 counterexample: on table `t` with index `(a,b)` and conditions
`a=1 AND c=3` the code returns all index columns `[a,b]`, not the matched
prefix `[a]` the claim states; and with the single non-equality condition
`a < 1` on an index `(a)` the match still succeeds, though the claim counts
only equality predicates. -/
theorem c1_counterexample :
    get_index_cols catAB "t" [condA1, condC3] = some ["a", "b"] ∧
    get_index_cols catAB "t" [condA1, condC3] ≠ some ["a"] ∧
    get_index_cols catA "t" [condALt] = some ["a"] := by decide

/-- C2 counterexample: for tables `r,s,u` with conditions
`r.x=s.x AND s.y=u.y` under default knobs, the planner produces a tree whose
top join has the scan of `u` as its left child and the join of `r,s` as its
right child, carrying the swapped condition `u.y=s.y`; it does not produce
the claimed left-deep tree `Join(Join(r,s), u, s.y=u.y)`. -/
theorem c2_counterexample :
    make_one_rel catNone ⟨true, true⟩ ["r", "s", "u"] [cRS, cSU] =
      .ok (.join .nestLoop (.scan .seqScan "u" [] [])
        (.join .nestLoop (.scan .seqScan "r" [] []) (.scan .seqScan "s" [] []) [cRS])
        [⟨⟨"u", "y"⟩, .eq, false, ⟨"s", "y"⟩, 0⟩]) ∧
    make_one_rel catNone ⟨true, true⟩ ["r", "s", "u"] [cRS, cSU] ≠
      .ok (.join .nestLoop
        (.join .nestLoop (.scan .seqScan "r" [] []) (.scan .seqScan "s" [] []) [cRS])
        (.scan .seqScan "u" [] []) [cSU]) := by decide

/-- C2 (amended): for tables `r,s,u` with conditions `r.x=s.x AND s.y=u.y`
under default knobs the planner produces NestLoop joins, with the first join
`Join(r, s, r.x=s.x)` and the scan of `u` attached as the *left* child of the
top join, which carries the swapped condition `u.y=s.y`; the right child of
the top join is the inner join, not a base-relation scan. -/
theorem c2_theorem :
    make_one_rel catNone ⟨true, true⟩ ["r", "s", "u"] [cRS, cSU] =
      .ok (.join .nestLoop (.scan .seqScan "u" [] [])
        (.join .nestLoop (.scan .seqScan "r" [] []) (.scan .seqScan "s" [] []) [cRS])
        [swapCond cSU]) ∧
    swapCond cSU = ⟨⟨"u", "y"⟩, .eq, false, ⟨"s", "y"⟩, 0⟩ := by decide

/-- C3 counterexample: for three 4-byte columns at declared offsets 0, 4, 8
the no-aggregate branch reads at positions `[0,4,8]` (each column's own
declared offset), not at the cumulative offset sums `[0,0,4]` the claim
asserts. -/
theorem c3_counterexample :
    noAggReadPos [⟨0, 4⟩, ⟨4, 4⟩, ⟨8, 4⟩] 0 = [0, 4, 8] ∧
    cumOffsetPos [⟨0, 4⟩, ⟨4, 4⟩, ⟨8, 4⟩] 0 = [0, 0, 4] ∧
    noAggReadPos [⟨0, 4⟩, ⟨4, 4⟩, ⟨8, 4⟩] 0 ≠ cumOffsetPos [⟨0, 4⟩, ⟨4, 4⟩, ⟨8, 4⟩] 0 := by decide

/-- C3 (amended): the no-aggregate branch of `select_from` reads each output
column at its own declared offset (its `cols_offset` accumulator is advanced
by `col.offset` but never used for a read), while the with-aggregate branch
reads the i-th column at the cumulative sum of the lens of the preceding
columns. -/
theorem c3_theorem :
    (∀ (cols : List ColMeta) (acc : Nat), noAggReadPos cols acc = cols.map fun c => c.offset) ∧
    (∀ (cols : List ColMeta) (acc : Nat), aggReadPos cols acc =
      (List.range cols.length).map fun i => acc + ((cols.take i).map fun c => c.len).sum) :=
  ⟨noAggReadPos_eq_map, aggReadPos_eq_sums⟩

/-- C8: `pop_conds(C, T)` removes from `C` and returns, in their original
order, exactly the conditions whose lhs table is `T` with a value rhs or
whose two column sides name the same table (whatever table that is), leaving
the rest in their original relative order; the second conjunct shows a
same-table condition of table `s` being popped while processing table `r`. -/
theorem c8_theorem :
    (∀ (tab : String) (conds : List Condition),
      pop_conds tab conds = (conds.filter (popPred tab), conds.filter fun c => !popPred tab c)) ∧
    pop_conds "r" [⟨⟨"s", "a"⟩, .eq, false, ⟨"s", "b"⟩, 0⟩] =
      ([⟨⟨"s", "a"⟩, .eq, false, ⟨"s", "b"⟩, 0⟩], []) :=
  ⟨pop_conds_eq_filter, by decide⟩

/-- C9: dispatching `ShowIndex` runs `show_indexs` and then, by the missing
`break`, falls through into `desc_table` on the same table; every other
utility tag performs exactly one action. -/
theorem c9_theorem :
    (∀ tab : String, run_cmd_utility .showIndex tab = [.showIndexs tab, .descTable tab]) ∧
    (∀ (tag : UtilTag) (tab : String), tag ≠ .showIndex → (run_cmd_utility tag tab).length = 1) := by
  refine ⟨fun tab => rfl, ?_⟩
  intro tag tab h
  cases tag <;> first | rfl | exact absurd rfl h

/-- C9 witness: the single-action statement applied to the `DescTable` tag. -/
theorem c9_witness : (run_cmd_utility .descTable "t").length = 1 :=
  c9_theorem.2 .descTable "t" (by decide)

/-- C10: each SELECT appends to the file exactly one header line and one line
per result row, each formatted as a bar followed by one space-padded cell and
bar per column and a newline, with no separator and no record-count line in
the file; the footer separator and the record count go to the buffer only,
and an empty result appends only the header line while the buffer gets the
header, the footer separator and a record count of 0. -/
theorem c10_theorem :
    ∀ (captions : List String) (rows : List (List String)),
      (select_from_out captions rows).file = fileLine captions :: rows.map fileLine ∧
      (select_from_out captions rows).buffer =
        [BufEvent.separator, BufEvent.record captions, BufEvent.separator]
          ++ rows.map BufEvent.record
          ++ [BufEvent.separator, BufEvent.recordCount rows.length] ∧
      fileLine ["ab", "c"] = "| ab | c |\n" ∧
      (select_from_out captions []).file = [fileLine captions] ∧
      (select_from_out captions []).buffer =
        [BufEvent.separator, BufEvent.record captions, BufEvent.separator,
          BufEvent.separator, BufEvent.recordCount 0] := by
  intro captions rows
  refine ⟨?_, ?_, by decide, ?_, ?_⟩ <;> simp [select_from_out, foldl_selectStep]

theorem countSM_of_isScan {p : Plan} (h : p.isScan = true) : countSM p = 0 := by
  cases p with
  | scan tg t cs ics => rfl
  | join tg l r cs => simp [Plan.isScan] at h
  | sort ch cols d => simp [Plan.isScan] at h

theorem upgrade_scan_isScan (cat : Catalog) (col : TabCol) (p : Plan) (h : p.isScan = true) :
    (upgrade_scan cat col p).isScan = true := by
  cases p with
  | scan tg t cs ics =>
    cases tg
    · simp only [upgrade_scan]
      cases gicAux (fun n => decide (col.col = n)) (cat.indexes t) 0 [] <;> rfl
    · rfl
  | join tg l r cs => simp [Plan.isScan] at h
  | sort ch cols d => simp [Plan.isScan] at h

theorem pop_scan_entries_scan (cat : Catalog) (col : TabCol) :
    ∀ (es : List ScanEntry) (jd : List String), (∀ e ∈ es, e.plan.isScan = true) →
      (∀ e ∈ (pop_scan cat col jd es).entries, e.plan.isScan = true) ∧
      (∀ p, (pop_scan cat col jd es).found = some p → p.isScan = true) := by
  intro es
  induction es with
  | nil =>
    intro jd _
    exact ⟨fun e he => absurd he (List.not_mem_nil e), fun p hp => by simp [pop_scan] at hp⟩
  | cons e rest ih =>
    intro jd h
    have he := h e (List.mem_cons_self e rest)
    have hrest : ∀ e' ∈ rest, e'.plan.isScan = true :=
      fun e' h' => h e' (List.mem_cons_of_mem _ h')
    by_cases heq : e.plan.scanTab = col.tab
    · simp only [pop_scan, if_pos heq]
      constructor
      · intro e' he'
        rcases List.mem_cons.mp he' with h1 | h2
        · rw [h1]; exact he
        · exact hrest e' h2
      · intro p hp
        have : upgrade_scan cat col e.plan = p := Option.some.inj hp
        rw [← this]
        exact upgrade_scan_isScan cat col e.plan he
    · simp only [pop_scan, if_neg heq]
      obtain ⟨ihe, ihf⟩ := ih jd hrest
      constructor
      · intro e' he'
        rcases List.mem_cons.mp he' with h1 | h2
        · rw [h1]; exact he
        · exact ihe e' h2
      · exact ihf

theorem popIfNew_scan_facts (cat : Catalog) (col : TabCol) (jd : List String)
    (es : List ScanEntry) (h : ∀ e ∈ es, e.plan.isScan = true) :
    (∀ e ∈ (popIfNew cat col jd es).entries, e.plan.isScan = true) ∧
    (∀ p, (popIfNew cat col jd es).found = some p → p.isScan = true) := by
  unfold popIfNew
  split
  · exact ⟨h, fun p hp => by simp at hp⟩
  · exact pop_scan_entries_scan cat col es jd h

theorem push_conds_countSM (c : Condition) : ∀ t : Plan, countSM (push_conds c t).2 = countSM t := by
  intro t
  induction t with
  | scan tg tb cs ics => simp only [push_conds]; split_ifs <;> rfl
  | join tg l r cs ihl ihr =>
    simp only [push_conds]
    split_ifs <;> cases tg <;> simp [countSM, ihl, ihr]
  | sort ch cols d => rfl

theorem joinStep_countSM (cat : Catalog) (st : BuildSt) (c : Condition)
    (hscan : ∀ e ∈ st.entries, e.plan.isScan = true) :
    countSM (joinStep cat st c).tree = countSM st.tree := by
  obtain ⟨h1e, h1f⟩ := popIfNew_scan_facts cat c.lhs_col st.joined st.entries hscan
  obtain ⟨h2e, h2f⟩ :=
    popIfNew_scan_facts cat c.rhs_col (popIfNew cat c.lhs_col st.joined st.entries).joined
      (popIfNew cat c.lhs_col st.joined st.entries).entries h1e
  unfold joinStep joinStep2 joinStep3
  rcases hf1 : (popIfNew cat c.lhs_col st.joined st.entries).found with _ | l <;>
    rcases hf2 : (popIfNew cat c.rhs_col (popIfNew cat c.lhs_col st.joined st.entries).joined
      (popIfNew cat c.lhs_col st.joined st.entries).entries).found with _ | r <;>
    simp only [hf1, hf2]
  · exact push_conds_countSM c st.tree
  · simp [countSM, countSM_of_isScan (h2f r hf2)]
  · simp [countSM, countSM_of_isScan (h1f l hf1)]
  · simp [countSM, countSM_of_isScan (h1f l hf1), countSM_of_isScan (h2f r hf2)]

theorem leftoverJoins_countSM :
    ∀ (es : List ScanEntry) (t : Plan), (∀ e ∈ es, e.plan.isScan = true) →
      countSM (leftoverJoins t es) = countSM t := by
  intro es
  induction es with
  | nil => intro t _; rfl
  | cons e rest ih =>
    intro t h
    have he := h e (List.mem_cons_self e rest)
    have hrest : ∀ e' ∈ rest, e'.plan.isScan = true :=
      fun e' h' => h e' (List.mem_cons_of_mem _ h')
    simp only [leftoverJoins]
    rw [ih _ hrest]
    by_cases hm : e.marked
    · rw [if_pos hm]
    · rw [if_neg hm]; simp [countSM, countSM_of_isScan he]

theorem pop_scan_joined_sub (cat : Catalog) (col : TabCol) :
    ∀ (es : List ScanEntry) (jd : List String) (x : String),
      x ∈ jd → x ∈ (pop_scan cat col jd es).joined := by
  intro es
  induction es with
  | nil => intro jd x hx; exact hx
  | cons e rest ih =>
    intro jd x hx
    by_cases h : e.plan.scanTab = col.tab
    · simp only [pop_scan, if_pos h]
      exact List.mem_append_left _ hx
    · simp only [pop_scan, if_neg h]
      exact ih jd x hx

/-- C5 counterexample: with only `enable_sortmerge_join` true, the three-way
query `r.x=s.x AND s.y=u.y` yields a plan whose top join is NestLoop even
though the nested-loop knob is off; only the first join is SortMerge. -/
theorem c5_counterexample :
    make_one_rel catNone ⟨false, true⟩ ["r", "s", "u"] [cRS, cSU] =
      .ok (.join .nestLoop (.scan .seqScan "u" [] [])
        (.join .sortMerge (.sort (.scan .seqScan "r" [] []) [⟨"r", "x"⟩] false)
          (.sort (.scan .seqScan "s" [] []) [⟨"s", "x"⟩] false) [cRS])
        [⟨⟨"u", "y"⟩, .eq, false, ⟨"s", "y"⟩, 0⟩]) ∧
    hasJoinTag (.join .nestLoop (.scan .seqScan "u" [] [])
      (.join .sortMerge (.sort (.scan .seqScan "r" [] []) [⟨"r", "x"⟩] false)
        (.sort (.scan .seqScan "s" [] []) [⟨"s", "x"⟩] false) [cRS])
      [⟨⟨"u", "y"⟩, .eq, false, ⟨"s", "y"⟩, 0⟩]) .nestLoop = true := by decide

/-- C5 (amended): the knob dispatch governs only the first join of
`make_one_rel`: both knobs true or only nested-loop true gives NestLoop, only
sort-merge true gives SortMerge, both false signals the configuration error;
every join added by a later loop iteration or by the leftover-table loop is
NestLoop regardless of the knobs (neither adds a sort-merge node). -/
theorem c5_theorem :
    (∀ (l r : Plan) (c : Condition),
      firstJoin ⟨true, true⟩ l r c = .ok (.join .nestLoop l r [c])) ∧
    (∀ (l r : Plan) (c : Condition),
      firstJoin ⟨true, false⟩ l r c = .ok (.join .nestLoop l r [c])) ∧
    (∀ (l r : Plan) (c : Condition), firstJoin ⟨false, false⟩ l r c = .error .config) ∧
    (∀ (l r : Plan) (c : Condition) (p : Plan), firstJoin ⟨false, true⟩ l r c = .ok p →
      ∃ sl sr, p = .join .sortMerge sl sr [c]) ∧
    (∀ (cat : Catalog) (st : BuildSt) (c : Condition),
      (∀ e ∈ st.entries, e.plan.isScan = true) →
      countSM (joinStep cat st c).tree = countSM st.tree) ∧
    (∀ (es : List ScanEntry) (t : Plan), (∀ e ∈ es, e.plan.isScan = true) →
      countSM (leftoverJoins t es) = countSM t) := by
  refine ⟨fun l r c => rfl, fun l r c => rfl, fun l r c => rfl, ?_,
    joinStep_countSM, leftoverJoins_countSM⟩
  intro l r c p h
  simp only [firstJoin, Bool.false_and, Bool.false_eq_true, if_false, if_true] at h
  rcases hw1 : sortWrap l c.lhs_col with _ | sl <;> rw [hw1] at h
  · simp at h
  · rcases hw2 : sortWrap r c.rhs_col with _ | sr <;> rw [hw2] at h
    · simp at h
    · exact ⟨sl, sr, (Except.ok.inj h).symm⟩

/-- C5 witness: the sort-merge shape statement and the later-join statement
applied at concrete inputs. -/
theorem c5_witness :
    (∃ sl sr, (Plan.join .sortMerge (.sort (.scan .seqScan "r" [] []) [⟨"r", "x"⟩] false)
      (.sort (.scan .seqScan "s" [] []) [⟨"s", "x"⟩] false) [cRS]) = .join .sortMerge sl sr [cRS]) ∧
    countSM (joinStep catNone ⟨.scan .seqScan "r" [] [], ["r"], []⟩ cRS).tree =
      countSM (Plan.scan .seqScan "r" [] []) :=
  ⟨c5_theorem.2.2.2.1 (.scan .seqScan "r" [] []) (.scan .seqScan "s" [] []) cRS _ (by decide),
   c5_theorem.2.2.2.2.1 catNone ⟨.scan .seqScan "r" [] [], ["r"], []⟩ cRS
     (fun e he => absurd he (List.not_mem_nil e))⟩

/-- C7: when exactly one side of a remaining join condition names a
not-yet-joined table, the planner pops that table's scan and makes it the new
left input of a NestLoop join over the running tree; the condition is carried
verbatim when the new table was already on the lhs and is side-swapped with
the operator inverted (EQ↔EQ, NE↔NE, LT↔GT, GT↔LT, LE↔GE, GE↔LE) when it was
on the rhs; in particular, with a tree covering `{a,b}` and new condition
`c.k=a.k` the new join carries `lhs=c.k, op=EQ, rhs=a.k`. -/
theorem c7_theorem :
    (∀ (cat : Catalog) (st : BuildSt) (c : Condition) (p : Plan) (j : List String)
      (e : List ScanEntry),
      c.lhs_col.tab ∉ st.joined → c.rhs_col.tab ∈ st.joined →
      pop_scan cat c.lhs_col st.joined st.entries = ⟨some p, j, e⟩ →
      joinStep cat st c = ⟨.join .nestLoop p st.tree [c], j, e⟩) ∧
    (∀ (cat : Catalog) (st : BuildSt) (c : Condition) (p : Plan) (j : List String)
      (e : List ScanEntry),
      c.lhs_col.tab ∈ st.joined → c.rhs_col.tab ∉ st.joined →
      pop_scan cat c.rhs_col st.joined st.entries = ⟨some p, j, e⟩ →
      joinStep cat st c = ⟨.join .nestLoop p st.tree [swapCond c], j, e⟩) ∧
    (swapOp .eq = .eq ∧ swapOp .ne = .ne ∧ swapOp .lt = .gt ∧ swapOp .gt = .lt ∧
      swapOp .le = .ge ∧ swapOp .ge = .le) ∧
    make_one_rel catNone ⟨true, true⟩ ["a", "b", "c"] [cAB, cCA] =
      .ok (.join .nestLoop (.scan .seqScan "c" [] [])
        (.join .nestLoop (.scan .seqScan "a" [] []) (.scan .seqScan "b" [] []) [cAB])
        [cCA]) := by
  refine ⟨?_, ?_, by decide, by decide⟩
  · intro cat st c p j e h1 h2 hpop
    have hj : c.rhs_col.tab ∈ j := by
      have := pop_scan_joined_sub cat c.lhs_col st.entries st.joined c.rhs_col.tab h2
      rw [hpop] at this
      exact this
    unfold joinStep joinStep2
    rw [show popIfNew cat c.lhs_col st.joined st.entries = ⟨some p, j, e⟩ by
      rw [popIfNew, if_neg h1]; exact hpop]
    rw [show popIfNew cat c.rhs_col (PopRes.mk (some p) j e).joined (PopRes.mk (some p) j e).entries
        = ⟨none, j, e⟩ by rw [popIfNew, if_pos hj]]
    rfl
  · intro cat st c p j e h1 h2 hpop
    unfold joinStep joinStep2
    rw [show popIfNew cat c.lhs_col st.joined st.entries = ⟨none, st.joined, st.entries⟩ by
      rw [popIfNew, if_pos h1]]
    rw [show popIfNew cat c.rhs_col (PopRes.mk none st.joined st.entries).joined
        (PopRes.mk none st.joined st.entries).entries = ⟨some p, j, e⟩ by
      rw [popIfNew, if_neg h2]; exact hpop]
    rfl

/-- C7 witness: the swap statement applied at a concrete state: tree covering
`{a,b}`, new condition `a.k < c.k` with `c` not yet joined, giving a new left
scan of `c` and the swapped condition `c.k > a.k`. -/
theorem c7_witness :
    joinStep catNone
      ⟨.join .nestLoop (.scan .seqScan "a" [] []) (.scan .seqScan "b" [] []) [cAB],
        ["a", "b"], [⟨.scan .seqScan "c" [] [], false⟩]⟩
      ⟨⟨"a", "k"⟩, .lt, false, ⟨"c", "k"⟩, 0⟩ =
    ⟨.join .nestLoop (.scan .seqScan "c" [] [])
        (.join .nestLoop (.scan .seqScan "a" [] []) (.scan .seqScan "b" [] []) [cAB])
        [swapCond ⟨⟨"a", "k"⟩, .lt, false, ⟨"c", "k"⟩, 0⟩],
      ["a", "b", "c"], [⟨.scan .seqScan "c" [] [], true⟩]⟩ :=
  c7_theorem.2.1 catNone
    ⟨.join .nestLoop (.scan .seqScan "a" [] []) (.scan .seqScan "b" [] []) [cAB],
      ["a", "b"], [⟨.scan .seqScan "c" [] [], false⟩]⟩
    ⟨⟨"a", "k"⟩, .lt, false, ⟨"c", "k"⟩, 0⟩
    (.scan .seqScan "c" [] []) ["a", "b", "c"] [⟨.scan .seqScan "c" [] [], true⟩]
    (by decide) (by decide) (by decide)

theorem smOk_of_isScan {p : Plan} (h : p.isScan = true) : smOk p = true := by
  cases p with
  | scan tg t cs ics => rfl
  | join tg l r cs => simp [Plan.isScan] at h
  | sort ch cols d => simp [Plan.isScan] at h

theorem push_conds_keep_child (c : Condition) (x : TabCol) :
    ∀ t : Plan, smChildOk x (push_conds c t).2 = smChildOk x t := by
  intro t
  cases t with
  | scan tg tb cs ics => simp only [push_conds]; split_ifs <;> rfl
  | join tg l r cs => simp only [push_conds]; split_ifs <;> rfl
  | sort ch cols d => rfl

theorem push_conds_smOk (c : Condition) : ∀ t : Plan, smOk t = true → smOk (push_conds c t).2 = true := by
  intro t
  induction t with
  | scan tg tb cs ics =>
    intro h
    simp only [push_conds]
    split_ifs <;> exact h
  | join tg l r cs ihl ihr =>
    intro h
    cases tg with
    | nestLoop =>
      simp only [smOk, Bool.and_eq_true] at h
      obtain ⟨hl, hr⟩ := h
      simp only [push_conds]
      split_ifs <;> simp [smOk, hl, hr, ihl hl, ihr hr]
    | sortMerge =>
      rcases cs with _ | ⟨chead, ctail⟩
      · simp [smOk] at h
      · simp only [smOk, Bool.and_eq_true] at h
        obtain ⟨⟨⟨hm1, hm2⟩, hl⟩, hr⟩ := h
        simp only [push_conds]
        split_ifs <;>
          simp [smOk, List.cons_append, push_conds_keep_child, hm1, hm2, hl, hr, ihl hl, ihr hr]
  | sort ch cols d =>
    intro h
    exact h

theorem joinStep_smOk (cat : Catalog) (st : BuildSt) (c : Condition)
    (htree : smOk st.tree = true) (hscan : ∀ e ∈ st.entries, e.plan.isScan = true) :
    smOk (joinStep cat st c).tree = true ∧
    (∀ e ∈ (joinStep cat st c).entries, e.plan.isScan = true) := by
  obtain ⟨h1e, h1f⟩ := popIfNew_scan_facts cat c.lhs_col st.joined st.entries hscan
  obtain ⟨h2e, h2f⟩ :=
    popIfNew_scan_facts cat c.rhs_col (popIfNew cat c.lhs_col st.joined st.entries).joined
      (popIfNew cat c.lhs_col st.joined st.entries).entries h1e
  unfold joinStep joinStep2 joinStep3
  rcases hf1 : (popIfNew cat c.lhs_col st.joined st.entries).found with _ | l <;>
    rcases hf2 : (popIfNew cat c.rhs_col (popIfNew cat c.lhs_col st.joined st.entries).joined
      (popIfNew cat c.lhs_col st.joined st.entries).entries).found with _ | r <;>
    simp only [hf1, hf2]
  · exact ⟨push_conds_smOk c st.tree htree, h2e⟩
  · exact ⟨by simp [smOk, htree, smOk_of_isScan (h2f r hf2)], h2e⟩
  · exact ⟨by simp [smOk, htree, smOk_of_isScan (h1f l hf1)], h2e⟩
  · exact ⟨by simp [smOk, htree, smOk_of_isScan (h1f l hf1), smOk_of_isScan (h2f r hf2)], h2e⟩

theorem fold_joinStep_smOk (cat : Catalog) :
    ∀ (conds : List Condition) (st : BuildSt),
      smOk st.tree = true → (∀ e ∈ st.entries, e.plan.isScan = true) →
      smOk (conds.foldl (joinStep cat) st).tree = true ∧
      (∀ e ∈ (conds.foldl (joinStep cat) st).entries, e.plan.isScan = true) := by
  intro conds
  induction conds with
  | nil => intro st h1 h2; exact ⟨h1, h2⟩
  | cons c rest ih =>
    intro st h1 h2
    obtain ⟨g1, g2⟩ := joinStep_smOk cat st c h1 h2
    simpa only [List.foldl_cons] using ih (joinStep cat st c) g1 g2

theorem leftoverJoins_smOk :
    ∀ (es : List ScanEntry) (t : Plan), smOk t = true →
      (∀ e ∈ es, e.plan.isScan = true) → smOk (leftoverJoins t es) = true := by
  intro es
  induction es with
  | nil => intro t h _; exact h
  | cons e rest ih =>
    intro t h hs
    have he := hs e (List.mem_cons_self e rest)
    have hrest : ∀ e' ∈ rest, e'.plan.isScan = true :=
      fun e' h' => hs e' (List.mem_cons_of_mem _ h')
    simp only [leftoverJoins]
    apply ih _ _ hrest
    by_cases hm : e.marked
    · rw [if_pos hm]; exact h
    · rw [if_neg hm]; simp [smOk, h, smOk_of_isScan he]

theorem sortWrap_of_scan {p : Plan} (x : TabCol) (h : p.isScan = true) :
    ∃ q, sortWrap p x = some q ∧ smChildOk x q = true ∧ smOk q = true := by
  cases p with
  | scan tg t cs ics =>
    cases tg
    · exact ⟨.sort (.scan .seqScan t cs ics) [x] false, rfl, by simp [smChildOk], rfl⟩
    · exact ⟨.scan .indexScan t cs ics, rfl, rfl, rfl⟩
  | join tg l r cs => simp [Plan.isScan] at h
  | sort ch cols d => simp [Plan.isScan] at h

theorem firstJoin_smOk (k : Knobs) (l r : Plan) (c : Condition) (t0 : Plan)
    (hl : l.isScan = true) (hr : r.isScan = true)
    (h : firstJoin k l r c = .ok t0) : smOk t0 = true := by
  obtain ⟨kn, ks⟩ := k
  cases kn <;> cases ks
  · exact absurd h (by simp [firstJoin])
  · obtain ⟨sl, hsl, hsl1, hsl2⟩ := sortWrap_of_scan c.lhs_col hl
    obtain ⟨sr, hsr, hsr1, hsr2⟩ := sortWrap_of_scan c.rhs_col hr
    unfold firstJoin at h
    rw [hsl, hsr] at h
    have h2 : Except.ok (Plan.join .sortMerge sl sr [c]) = Except.ok t0 := h
    have h3 := Except.ok.inj h2
    rw [← h3]
    simp [smOk, hsl1, hsl2, hsr1, hsr2]
  · have h2 : Except.ok (Plan.join .nestLoop l r [c]) = Except.ok t0 := h
    have h3 := Except.ok.inj h2
    rw [← h3]
    simp [smOk, smOk_of_isScan hl, smOk_of_isScan hr]
  · have h2 : Except.ok (Plan.join .nestLoop l r [c]) = Except.ok t0 := h
    have h3 := Except.ok.inj h2
    rw [← h3]
    simp [smOk, smOk_of_isScan hl, smOk_of_isScan hr]

theorem scanForTable_isScan (cat : Catalog) (t : String) (cs : List Condition) :
    (scanForTable cat t cs).isScan = true := by
  unfold scanForTable
  rcases get_index_cols cat t cs with _ | ics <;> rfl

theorem buildScans_scan (cat : Catalog) :
    ∀ (tables : List String) (conds : List Condition),
      ∀ p ∈ (buildScans cat tables conds).1, p.isScan = true := by
  intro tables
  induction tables with
  | nil => intro conds p hp; simp [buildScans] at hp
  | cons t rest ih =>
    intro conds p hp
    simp only [buildScans] at hp
    rcases List.mem_cons.mp hp with h1 | h2
    · rw [h1]; exact scanForTable_isScan cat t _
    · exact ih _ p h2

theorem markFirst_plans {P : Plan → Prop} :
    ∀ es : List ScanEntry, (∀ e ∈ es, P e.plan) → ∀ e ∈ markFirst es, P e.plan := by
  intro es h e he
  cases es with
  | nil => simp [markFirst] at he
  | cons e0 rest =>
    rcases List.mem_cons.mp he with h1 | h2
    · rw [h1]; exact h e0 (List.mem_cons_self e0 rest)
    · exact h e (List.mem_cons_of_mem _ h2)

theorem make_one_rel_smOk (cat : Catalog) (k : Knobs) (tables : List String)
    (conds0 : List Condition) (p : Plan)
    (h : make_one_rel cat k tables conds0 = .ok p) : smOk p = true := by
  have hscans := buildScans_scan cat tables conds0
  unfold make_one_rel at h
  rcases hps : buildScans cat tables conds0 with ⟨scans, conds⟩
  rw [hps] at h hscans
  rcases scans with _ | ⟨s0, srest⟩
  · simp [make_one_rel_core] at h
  · have hs0 : s0.isScan = true := hscans s0 (List.mem_cons_self s0 srest)
    have hent : ∀ e ∈ (s0 :: srest).map (fun q => ScanEntry.mk q false), e.plan.isScan = true := by
      intro e he
      obtain ⟨q, hq, hq2⟩ := List.mem_map.mp he
      rw [← hq2]
      exact hscans q hq
    rcases conds with _ | ⟨c, rest⟩
    · simp only [make_one_rel_core] at h
      split_ifs at h with hlen
      · have := Except.ok.inj h
        rw [← this]
        exact smOk_of_isScan hs0
      · have := Except.ok.inj h
        rw [← this]
        exact leftoverJoins_smOk _ s0 (smOk_of_isScan hs0)
          (markFirst_plans (P := fun q => q.isScan = true) _ hent)
    · simp only [make_one_rel_core] at h
      split_ifs at h with hlen
      · have := Except.ok.inj h
        rw [← this]
        exact smOk_of_isScan hs0
      · obtain ⟨h1e, h1f⟩ := pop_scan_entries_scan cat c.lhs_col
          ((s0 :: srest).map fun q => ScanEntry.mk q false)
          (List.replicate tables.length "") hent
        rw [make_one_rel_pop1] at h
        rcases hp1 : (pop_scan cat c.lhs_col (List.replicate tables.length "")
            ((s0 :: srest).map fun q => ScanEntry.mk q false)).found with _ | l
        · rw [hp1] at h
          simp [make_one_rel_found1] at h
        · rw [hp1] at h
          simp only [make_one_rel_found1] at h
          obtain ⟨h2e, h2f⟩ := pop_scan_entries_scan cat c.rhs_col
            (pop_scan cat c.lhs_col (List.replicate tables.length "")
              ((s0 :: srest).map fun q => ScanEntry.mk q false)).entries
            (pop_scan cat c.lhs_col (List.replicate tables.length "")
              ((s0 :: srest).map fun q => ScanEntry.mk q false)).joined h1e
          rw [make_one_rel_pop2] at h
          rcases hp2 : (pop_scan cat c.rhs_col
              (pop_scan cat c.lhs_col (List.replicate tables.length "")
                ((s0 :: srest).map fun q => ScanEntry.mk q false)).joined
              (pop_scan cat c.lhs_col (List.replicate tables.length "")
                ((s0 :: srest).map fun q => ScanEntry.mk q false)).entries).found with _ | r
          · rw [hp2] at h
            simp [make_one_rel_found3] at h
          · rw [hp2] at h
            simp only [make_one_rel_found3] at h
            rcases hfj : firstJoin k l r c with e0 | t0
            · rw [hfj] at h
              simp [make_one_rel_built] at h
            · rw [hfj] at h
              simp only [make_one_rel_built] at h
              have hsm0 : smOk t0 = true :=
                firstJoin_smOk k l r c t0 (h1f l hp1) (h2f r hp2) hfj
              obtain ⟨hg1, hg2⟩ := fold_joinStep_smOk cat rest ⟨t0, _, _⟩ hsm0 h2e
              have := Except.ok.inj h
              rw [← this]
              exact leftoverJoins_smOk _ _ hg1 hg2

/-- C6: every SortMerge join node the planner builds has each child either a
SortPlan sorting that side on the join column of the node's first condition
or an IndexScan; and the two-table equi-join `r.x=s.x` planned with only
`enable_sortmerge_join=true` and no index on either side yields
`SortMergeJoin(Sort(SeqScan(r), [r.x]), Sort(SeqScan(s), [s.x]))`. -/
theorem c6_theorem :
    (∀ (cat : Catalog) (k : Knobs) (tables : List String) (conds0 : List Condition) (p : Plan),
      make_one_rel cat k tables conds0 = .ok p → smOk p = true) ∧
    make_one_rel catNone ⟨false, true⟩ ["r", "s"] [cRS] =
      .ok (.join .sortMerge (.sort (.scan .seqScan "r" [] []) [⟨"r", "x"⟩] false)
        (.sort (.scan .seqScan "s" [] []) [⟨"s", "x"⟩] false) [cRS]) :=
  ⟨make_one_rel_smOk, by decide⟩

/-- C6 witness: the invariant applied to the concrete sort-merge plan of the
two-table scenario. -/
theorem c6_witness :
    smOk (.join .sortMerge (.sort (.scan .seqScan "r" [] []) [⟨"r", "x"⟩] false)
      (.sort (.scan .seqScan "s" [] []) [⟨"s", "x"⟩] false) [cRS]) = true :=
  c6_theorem.1 catNone ⟨false, true⟩ ["r", "s"] [cRS] _ (by decide)

theorem planTabs_of_isScan {p : Plan} (h : p.isScan = true) : planTabs p = [p.scanTab] := by
  cases p with
  | scan tg t cs ics => rfl
  | join tg l r cs => simp [Plan.isScan] at h
  | sort ch cols d => simp [Plan.isScan] at h

theorem nlOnly_of_isScan {p : Plan} (h : p.isScan = true) : nlOnly p = true := by
  cases p with
  | scan tg t cs ics => rfl
  | join tg l r cs => simp [Plan.isScan] at h
  | sort ch cols d => simp [Plan.isScan] at h

theorem upgrade_scan_keep (cat : Catalog) (col : TabCol) (p : Plan) (h : p.isScan = true) :
    (upgrade_scan cat col p).scanTab = p.scanTab ∧
    planCondsMul (upgrade_scan cat col p) = planCondsMul p := by
  cases p with
  | scan tg t cs ics =>
    cases tg
    · simp only [upgrade_scan]
      cases gicAux (fun n => decide (col.col = n)) (cat.indexes t) 0 [] <;> exact ⟨rfl, rfl⟩
    · exact ⟨rfl, rfl⟩
  | join tg l r cs => simp [Plan.isScan] at h
  | sort ch cols d => simp [Plan.isScan] at h

theorem unmarkedMul_cons (e : ScanEntry) (rest : List ScanEntry) :
    unmarkedMul (e :: rest) =
      (if e.marked then 0 else planCondsMul e.plan) + unmarkedMul rest := by
  simp [unmarkedMul]

theorem pop_scan_spec (cat : Catalog) (col : TabCol) :
    ∀ (es : List ScanEntry) (jd : List String),
      (∀ e ∈ es, e.plan.isScan = true) →
      (entryTabs es).Nodup →
      (∀ e ∈ es, e.marked = true ↔ e.plan.scanTab ∈ jd) →
      col.tab ∈ entryTabs es →
      col.tab ∉ jd →
      ∃ p, (pop_scan cat col jd es).found = some p ∧
        (pop_scan cat col jd es).joined = jd ++ [col.tab] ∧
        p.isScan = true ∧ p.scanTab = col.tab ∧
        entryTabs (pop_scan cat col jd es).entries = entryTabs es ∧
        (∀ e ∈ (pop_scan cat col jd es).entries, e.plan.isScan = true) ∧
        (∀ e ∈ (pop_scan cat col jd es).entries,
          e.marked = true ↔ e.plan.scanTab ∈ jd ++ [col.tab]) ∧
        unmarkedMul es = unmarkedMul (pop_scan cat col jd es).entries + planCondsMul p := by
  intro es
  induction es with
  | nil =>
    intro jd _ _ _ hmem _
    simp [entryTabs] at hmem
  | cons e rest ih =>
    intro jd hscan hnd hmk hmem hnj
    have he_scan : e.plan.isScan = true := hscan e (List.mem_cons_self e rest)
    have hrest_scan : ∀ x ∈ rest, x.plan.isScan = true :=
      fun x hx => hscan x (List.mem_cons_of_mem _ hx)
    simp only [entryTabs, List.map_cons] at hnd hmem
    have hnd2 : (entryTabs rest).Nodup := (List.nodup_cons.mp hnd).2
    have hnotmem : e.plan.scanTab ∉ List.map (fun x => x.plan.scanTab) rest :=
      (List.nodup_cons.mp hnd).1
    by_cases heq : e.plan.scanTab = col.tab
    · have hmk_e : e.marked = false := by
        cases hb : e.marked
        · rfl
        · exact absurd (heq ▸ (hmk e (List.mem_cons_self e rest)).mp hb) hnj
      have hres : pop_scan cat col jd (e :: rest) =
          ⟨some (upgrade_scan cat col e.plan), jd ++ [col.tab],
            ⟨e.plan, true⟩ :: rest⟩ := by
        simp only [pop_scan, if_pos heq]
      rw [hres]
      obtain ⟨hu1, hu2⟩ := upgrade_scan_keep cat col e.plan he_scan
      refine ⟨upgrade_scan cat col e.plan, rfl, rfl,
        upgrade_scan_isScan cat col e.plan he_scan, hu1.trans heq, ?_, ?_, ?_, ?_⟩
      · simp [entryTabs]
      · intro x hx
        rcases List.mem_cons.mp hx with h1 | h2
        · rw [h1]; exact he_scan
        · exact hrest_scan x h2
      · intro x hx
        rcases List.mem_cons.mp hx with h1 | h2
        · rw [h1]
          constructor
          · intro _
            rw [show (ScanEntry.mk e.plan true).plan = e.plan from rfl, heq]
            exact List.mem_append_right _ (List.mem_singleton_self col.tab)
          · intro _; rfl
        · have hx_ne : x.plan.scanTab ≠ col.tab := by
            intro hcontra
            have hm : x.plan.scanTab ∈ List.map (fun y => y.plan.scanTab) rest :=
              List.mem_map_of_mem _ h2
            rw [hcontra, ← heq] at hm
            exact hnotmem hm
          rw [hmk x (List.mem_cons_of_mem _ h2)]
          simp [List.mem_append, hx_ne]
      · rw [unmarkedMul_cons, unmarkedMul_cons, hmk_e]
        simp [hu2, add_comm]
    · have hmem2 : col.tab ∈ entryTabs rest := by
        rcases List.mem_cons.mp hmem with h1 | h2
        · exact absurd h1.symm heq
        · exact h2
      have hmk2 : ∀ x ∈ rest, x.marked = true ↔ x.plan.scanTab ∈ jd :=
        fun x hx => hmk x (List.mem_cons_of_mem _ hx)
      obtain ⟨p, hf, hj, hps, hpt, het, hscs, hmks, hum⟩ :=
        ih jd hrest_scan hnd2 hmk2 hmem2 hnj
      have hres : pop_scan cat col jd (e :: rest) =
          ⟨(pop_scan cat col jd rest).found, (pop_scan cat col jd rest).joined,
            e :: (pop_scan cat col jd rest).entries⟩ := by
        simp only [pop_scan, if_neg heq]
      rw [hres]
      refine ⟨p, hf, hj, hps, hpt, ?_, ?_, ?_, ?_⟩
      · simp only [entryTabs, List.map_cons]
        simp only [entryTabs] at het
        rw [het]
      · intro x hx
        rcases List.mem_cons.mp hx with h1 | h2
        · rw [h1]; exact he_scan
        · exact hscs x h2
      · intro x hx
        rcases List.mem_cons.mp hx with h1 | h2
        · rw [h1]
          rw [hmk e (List.mem_cons_self e rest)]
          simp [List.mem_append, heq]
        · exact hmks x h2
      · rw [unmarkedMul_cons, unmarkedMul_cons, hum, add_assoc]

theorem push_spec (c : Condition) (hne : c.lhs_col.tab ≠ c.rhs_col.tab) :
    ∀ t : Plan, nlOnly t = true → (planTabs t).Nodup →
      planTabs (push_conds c t).2 = planTabs t ∧
      nlOnly (push_conds c t).2 = true ∧
      ((c.lhs_col.tab ∈ planTabs t ∧ c.rhs_col.tab ∈ planTabs t) →
        (push_conds c t).1 = 3 ∧
        (planCondsMul (push_conds c t).2 = planCondsMul t + {c} ∨
         planCondsMul (push_conds c t).2 = planCondsMul t + {swapCond c})) ∧
      (¬(c.lhs_col.tab ∈ planTabs t ∧ c.rhs_col.tab ∈ planTabs t) →
        (push_conds c t).2 = t ∧
        (push_conds c t).1 =
          if c.lhs_col.tab ∈ planTabs t then 1
          else if c.rhs_col.tab ∈ planTabs t then 2 else 0) := by
  intro t
  induction t with
  | scan tg tb cs ics =>
    intro _ _
    simp only [planTabs]
    by_cases h1 : tb = c.lhs_col.tab
    · have hres : push_conds c (.scan tg tb cs ics) = (1, .scan tg tb cs ics) := by
        simp only [push_conds, if_pos h1]
      rw [hres]
      refine ⟨rfl, rfl, ?_, ?_⟩
      · intro hcon
        have ha2 := List.mem_singleton.mp hcon.1
        have hb2 := List.mem_singleton.mp hcon.2
        exact absurd (ha2.trans hb2.symm) hne
      · intro _
        exact ⟨rfl, by rw [if_pos (List.mem_singleton.mpr h1.symm)]⟩
    · by_cases h2 : tb = c.rhs_col.tab
      · have hres : push_conds c (.scan tg tb cs ics) = (2, .scan tg tb cs ics) := by
          simp only [push_conds, if_neg h1, if_pos h2]
        rw [hres]
        refine ⟨rfl, rfl, ?_, ?_⟩
        · intro hcon
          exact absurd (List.mem_singleton.mp hcon.1).symm h1
        · intro _
          refine ⟨rfl, ?_⟩
          rw [if_neg (fun hmem => h1 (List.mem_singleton.mp hmem).symm),
            if_pos (List.mem_singleton.mpr h2.symm)]
      · have hres : push_conds c (.scan tg tb cs ics) = (0, .scan tg tb cs ics) := by
          simp only [push_conds, if_neg h1, if_neg h2]
        rw [hres]
        refine ⟨rfl, rfl, ?_, ?_⟩
        · intro hcon
          exact absurd (List.mem_singleton.mp hcon.1).symm h1
        · intro _
          refine ⟨rfl, ?_⟩
          rw [if_neg (fun hmem => h1 (List.mem_singleton.mp hmem).symm),
            if_neg (fun hmem => h2 (List.mem_singleton.mp hmem).symm)]
  | join tg l r cs ihl ihr =>
    intro hnl hnd
    cases tg with
    | sortMerge => simp [nlOnly] at hnl
    | nestLoop =>
      simp only [nlOnly, Bool.and_eq_true] at hnl
      obtain ⟨hl, hr⟩ := hnl
      simp only [planTabs] at hnd ⊢
      rw [List.nodup_append] at hnd
      obtain ⟨ndl, ndr, hdisj⟩ := hnd
      obtain ⟨ihlT, ihlN, ihlP, ihlE⟩ := ihl hl ndl
      obtain ⟨ihrT, ihrN, ihrP, ihrE⟩ := ihr hr ndr
      by_cases hLl : c.lhs_col.tab ∈ planTabs l
      · by_cases hRl : c.rhs_col.tab ∈ planTabs l
        · -- both condition tables inside the left subtree
          obtain ⟨ha3, hmull⟩ := ihlP ⟨hLl, hRl⟩
          have hres : push_conds c (Plan.join .nestLoop l r cs) =
              (3, Plan.join .nestLoop (push_conds c l).2 r cs) := by
            simp only [push_conds]
            rw [if_pos ha3]
          rw [hres]
          refine ⟨by simp only [planTabs, ihlT], by simp [nlOnly, ihlN, hr], ?_, ?_⟩
          · intro _
            refine ⟨rfl, ?_⟩
            rcases hmull with hm | hm
            · left; simp only [planCondsMul, hm]; abel
            · right; simp only [planCondsMul, hm]; abel
          · intro hn
            exact absurd ⟨List.mem_append_left _ hLl, List.mem_append_left _ hRl⟩ hn
        · by_cases hLr : c.lhs_col.tab ∈ planTabs r
          · exact (hdisj hLl hLr).elim
          · obtain ⟨hl2, haval⟩ := ihlE (fun h => hRl h.2)
            rw [if_pos hLl] at haval
            by_cases hRr : c.rhs_col.tab ∈ planTabs r
            · -- lhs in left, rhs in right: append the condition unswapped
              obtain ⟨hr2, hbval⟩ := ihrE (fun h => hLr h.1)
              rw [if_neg hLr, if_pos hRr] at hbval
              have hres : push_conds c (Plan.join .nestLoop l r cs) =
                  (3, Plan.join .nestLoop l r (cs ++ [c])) := by
                simp [push_conds, haval, hbval]
              rw [hres]
              refine ⟨rfl, by simp [nlOnly, hl, hr], ?_, ?_⟩
              · intro _
                refine ⟨rfl, Or.inl ?_⟩
                simp only [planCondsMul]
                rw [← Multiset.coe_add, Multiset.coe_singleton]
                exact (add_assoc _ _ _).symm
              · intro hn
                exact absurd ⟨List.mem_append_left _ hLl, List.mem_append_right _ hRr⟩ hn
            · -- only lhs joined somewhere: code 1, nothing pushed
              obtain ⟨hr2, hbval⟩ := ihrE (fun h => hLr h.1)
              rw [if_neg hLr, if_neg hRr] at hbval
              have hres : push_conds c (Plan.join .nestLoop l r cs) =
                  (1, Plan.join .nestLoop l r cs) := by
                simp [push_conds, haval, hbval]
              rw [hres]
              refine ⟨rfl, by simp [nlOnly, hl, hr], ?_, ?_⟩
              · intro hcon
                rcases List.mem_append.mp hcon.2 with hx | hx
                · exact absurd hx hRl
                · exact absurd hx hRr
              · intro _
                exact ⟨rfl, by rw [if_pos (List.mem_append_left _ hLl)]⟩
      · by_cases hRl : c.rhs_col.tab ∈ planTabs l
        · by_cases hRr : c.rhs_col.tab ∈ planTabs r
          · exact (hdisj hRl hRr).elim
          · obtain ⟨hl2, haval⟩ := ihlE (fun h => hLl h.1)
            rw [if_neg hLl, if_pos hRl] at haval
            by_cases hLr : c.lhs_col.tab ∈ planTabs r
            · -- rhs in left, lhs in right: append the swapped condition
              obtain ⟨hr2, hbval⟩ := ihrE (fun h => hRr h.2)
              rw [if_pos hLr] at hbval
              have hres : push_conds c (Plan.join .nestLoop l r cs) =
                  (3, Plan.join .nestLoop l r (cs ++ [swapCond c])) := by
                simp [push_conds, haval, hbval]
              rw [hres]
              refine ⟨rfl, by simp [nlOnly, hl, hr], ?_, ?_⟩
              · intro _
                refine ⟨rfl, Or.inr ?_⟩
                simp only [planCondsMul]
                rw [← Multiset.coe_add, Multiset.coe_singleton]
                exact (add_assoc _ _ _).symm
              · intro hn
                exact absurd ⟨List.mem_append_right _ hLr, List.mem_append_left _ hRl⟩ hn
            · -- only rhs joined somewhere: code 2, nothing pushed
              obtain ⟨hr2, hbval⟩ := ihrE (fun h => hLr h.1)
              rw [if_neg hLr, if_neg hRr] at hbval
              have hres : push_conds c (Plan.join .nestLoop l r cs) =
                  (2, Plan.join .nestLoop l r cs) := by
                simp [push_conds, haval, hbval]
              rw [hres]
              refine ⟨rfl, by simp [nlOnly, hl, hr], ?_, ?_⟩
              · intro hcon
                rcases List.mem_append.mp hcon.1 with hx | hx
                · exact absurd hx hLl
                · exact absurd hx hLr
              · intro _
                refine ⟨rfl, ?_⟩
                rw [if_neg (fun hmem => (List.mem_append.mp hmem).elim
                    (fun hx => hLl hx) (fun hx => hLr hx)),
                  if_pos (List.mem_append_left _ hRl)]
        · -- nothing of the condition in the left subtree: code 0 on the left
          obtain ⟨hl2, haval⟩ := ihlE (fun h => hLl h.1)
          rw [if_neg hLl, if_neg hRl] at haval
          by_cases hLr : c.lhs_col.tab ∈ planTabs r
          · by_cases hRr : c.rhs_col.tab ∈ planTabs r
            · -- both condition tables inside the right subtree
              obtain ⟨hb3, hmulr⟩ := ihrP ⟨hLr, hRr⟩
              have hres : push_conds c (Plan.join .nestLoop l r cs) =
                  (3, Plan.join .nestLoop l (push_conds c r).2 cs) := by
                simp [push_conds, haval, hb3]
              rw [hres]
              refine ⟨by simp only [planTabs, ihrT], by simp [nlOnly, hl, ihrN], ?_, ?_⟩
              · intro _
                refine ⟨rfl, ?_⟩
                rcases hmulr with hm | hm
                · left; simp only [planCondsMul, hm]; abel
                · right; simp only [planCondsMul, hm]; abel
              · intro hn
                exact absurd ⟨List.mem_append_right _ hLr, List.mem_append_right _ hRr⟩ hn
            · -- only lhs joined (in the right subtree): code 1
              obtain ⟨hr2, hbval⟩ := ihrE (fun h => hRr h.2)
              rw [if_pos hLr] at hbval
              have hres : push_conds c (Plan.join .nestLoop l r cs) =
                  (1, Plan.join .nestLoop l r cs) := by
                simp [push_conds, haval, hbval]
              rw [hres]
              refine ⟨rfl, by simp [nlOnly, hl, hr], ?_, ?_⟩
              · intro hcon
                rcases List.mem_append.mp hcon.2 with hx | hx
                · exact absurd hx hRl
                · exact absurd hx hRr
              · intro _
                exact ⟨rfl, by rw [if_pos (List.mem_append_right _ hLr)]⟩
          · by_cases hRr : c.rhs_col.tab ∈ planTabs r
            · -- only rhs joined (in the right subtree): code 2
              obtain ⟨hr2, hbval⟩ := ihrE (fun h => hLr h.1)
              rw [if_neg hLr, if_pos hRr] at hbval
              have hres : push_conds c (Plan.join .nestLoop l r cs) =
                  (2, Plan.join .nestLoop l r cs) := by
                simp [push_conds, haval, hbval]
              rw [hres]
              refine ⟨rfl, by simp [nlOnly, hl, hr], ?_, ?_⟩
              · intro hcon
                rcases List.mem_append.mp hcon.1 with hx | hx
                · exact absurd hx hLl
                · exact absurd hx hLr
              · intro _
                refine ⟨rfl, ?_⟩
                rw [if_neg (fun hmem => (List.mem_append.mp hmem).elim
                    (fun hx => hLl hx) (fun hx => hLr hx)),
                  if_pos (List.mem_append_right _ hRr)]
            · -- neither table anywhere: code 0
              obtain ⟨hr2, hbval⟩ := ihrE (fun h => hLr h.1)
              rw [if_neg hLr, if_neg hRr] at hbval
              have hres : push_conds c (Plan.join .nestLoop l r cs) =
                  (0, Plan.join .nestLoop l r cs) := by
                simp [push_conds, haval, hbval]
              rw [hres]
              refine ⟨rfl, by simp [nlOnly, hl, hr], ?_, ?_⟩
              · intro hcon
                rcases List.mem_append.mp hcon.1 with hx | hx
                · exact absurd hx hLl
                · exact absurd hx hLr
              · intro _
                refine ⟨rfl, ?_⟩
                rw [if_neg (fun hmem => (List.mem_append.mp hmem).elim
                    (fun hx => hLl hx) (fun hx => hLr hx)),
                  if_neg (fun hmem => (List.mem_append.mp hmem).elim
                    (fun hx => hRl hx) (fun hx => hRr hx))]
  | sort ch cols d =>
    intro hnl _
    simp [nlOnly] at hnl

theorem rel_eqOrSwap_refl (s : Multiset Condition) : Multiset.Rel eqOrSwap s s :=
  Multiset.rel_refl_of_refl_on fun _ _ => Or.inl rfl

theorem leftoverJoins_condsMul :
    ∀ (es : List ScanEntry) (t : Plan),
      planCondsMul (leftoverJoins t es) = planCondsMul t + unmarkedMul es := by
  intro es
  induction es with
  | nil =>
    intro t
    show planCondsMul t = planCondsMul t + unmarkedMul []
    simp [unmarkedMul]
  | cons e rest ih =>
    intro t
    simp only [leftoverJoins]
    rw [ih, unmarkedMul_cons]
    by_cases hm : e.marked
    · rw [if_pos hm, if_pos hm, zero_add]
    · rw [if_neg hm, if_neg hm]
      simp only [planCondsMul, Multiset.coe_nil]
      abel

theorem INV_grow (tables : List String) (st : BuildSt) (newTabs : List String)
    (tree2 : Plan) (j2 : List String) (e2 : List ScanEntry)
    (hinv : INV tables st)
    (htabs2 : planTabs tree2 = newTabs ++ planTabs st.tree)
    (hnl2 : nlOnly tree2 = true)
    (hnewT : ∀ T ∈ newTabs, T ∈ tables)
    (hnewNJ : ∀ T ∈ newTabs, T ∉ st.joined)
    (hnewND : newTabs.Nodup)
    (hj : j2 = st.joined ++ newTabs)
    (het : entryTabs e2 = entryTabs st.entries)
    (hscs : ∀ e ∈ e2, e.plan.isScan = true)
    (hmks : ∀ e ∈ e2, e.marked = true ↔ e.plan.scanTab ∈ j2) :
    INV tables ⟨tree2, j2, e2⟩ := by
  obtain ⟨hscan, htabs, hmk, hjoin, hndt, hsub, hnl⟩ := hinv
  refine ⟨hscs, het.trans htabs, hmks, ?_, ?_, ?_, hnl2⟩
  · intro T hT
    show T ∈ planTabs tree2 ↔ T ∈ j2
    rw [htabs2, hj]
    simp only [List.mem_append]
    rw [hjoin T hT]
    exact or_comm
  · show (planTabs tree2).Nodup
    rw [htabs2, List.nodup_append]
    refine ⟨hnewND, hndt, ?_⟩
    intro x hx1 hx2
    exact hnewNJ x hx1 ((hjoin x (hnewT x hx1)).mp hx2)
  · intro T hT
    have hT2 : T ∈ newTabs ++ planTabs st.tree := htabs2 ▸ hT
    rcases List.mem_append.mp hT2 with h1 | h2
    · exact hnewT T h1
    · exact hsub T h2

theorem joinStep_spec (cat : Catalog) (tables : List String)
    (hnd : tables.Nodup) (st : BuildSt) (c : Condition)
    (hinv : INV tables st) (hwf : wfCond tables c) :
    ∃ δ : Multiset Condition, (δ = {c} ∨ δ = {swapCond c}) ∧
      planCondsMul (joinStep cat st c).tree + unmarkedMul (joinStep cat st c).entries =
        planCondsMul st.tree + unmarkedMul st.entries + δ ∧
      INV tables (joinStep cat st c) := by
  obtain ⟨hscan, htabs, hmk, hjoin, hndt, hsub, hnl⟩ := hinv
  obtain ⟨hLt, hRt, hneq⟩ := hwf
  have hndents : (entryTabs st.entries).Nodup := htabs.symm ▸ hnd
  by_cases hl : c.lhs_col.tab ∈ st.joined
  · by_cases hr2m : c.rhs_col.tab ∈ st.joined
    · -- both sides joined: push the condition into the tree
      have e1 : popIfNew cat c.lhs_col st.joined st.entries = ⟨none, st.joined, st.entries⟩ := by
        rw [popIfNew, if_pos hl]
      have e2 : popIfNew cat c.rhs_col st.joined st.entries = ⟨none, st.joined, st.entries⟩ := by
        rw [popIfNew, if_pos hr2m]
      have hstep : joinStep cat st c = ⟨(push_conds c st.tree).2, st.joined, st.entries⟩ := by
        unfold joinStep joinStep2
        rw [e1]
        rw [show popIfNew cat c.rhs_col (PopRes.mk none st.joined st.entries).joined
            (PopRes.mk none st.joined st.entries).entries
            = ⟨none, st.joined, st.entries⟩ from e2]
        rfl
      have hL : c.lhs_col.tab ∈ planTabs st.tree := (hjoin _ hLt).mpr hl
      have hR : c.rhs_col.tab ∈ planTabs st.tree := (hjoin _ hRt).mpr hr2m
      obtain ⟨pT, pN, pP, _⟩ := push_spec c hneq st.tree hnl hndt
      obtain ⟨_, hδ⟩ := pP ⟨hL, hR⟩
      have hinv2 : INV tables ⟨(push_conds c st.tree).2, st.joined, st.entries⟩ := by
        refine ⟨hscan, htabs, hmk, ?_, ?_, ?_, pN⟩
        · intro T hT
          show T ∈ planTabs (push_conds c st.tree).2 ↔ T ∈ st.joined
          rw [pT]
          exact hjoin T hT
        · show (planTabs (push_conds c st.tree).2).Nodup
          rw [pT]
          exact hndt
        · intro T hT
          exact hsub T (pT ▸ hT)
      rcases hδ with hm | hm
      · refine ⟨{c}, Or.inl rfl, ?_, ?_⟩
        · rw [hstep]
          show planCondsMul (push_conds c st.tree).2 + unmarkedMul st.entries =
            planCondsMul st.tree + unmarkedMul st.entries + {c}
          rw [hm]
          abel
        · rw [hstep]
          exact hinv2
      · refine ⟨{swapCond c}, Or.inr rfl, ?_, ?_⟩
        · rw [hstep]
          show planCondsMul (push_conds c st.tree).2 + unmarkedMul st.entries =
            planCondsMul st.tree + unmarkedMul st.entries + {swapCond c}
          rw [hm]
          abel
        · rw [hstep]
          exact hinv2
    · -- lhs joined, rhs new: pop the rhs scan, swap the condition
      obtain ⟨p, hf, hj, hpscan, hptab, het, hscs, hmks, hum⟩ :=
        pop_scan_spec cat c.rhs_col st.entries st.joined hscan hndents hmk
          (htabs.symm ▸ hRt) hr2m
      have e1 : popIfNew cat c.lhs_col st.joined st.entries = ⟨none, st.joined, st.entries⟩ := by
        rw [popIfNew, if_pos hl]
      have hstep : joinStep cat st c =
          ⟨.join .nestLoop p st.tree [swapCond c],
            (pop_scan cat c.rhs_col st.joined st.entries).joined,
            (pop_scan cat c.rhs_col st.joined st.entries).entries⟩ := by
        unfold joinStep joinStep2
        rw [e1]
        rw [show popIfNew cat c.rhs_col (PopRes.mk none st.joined st.entries).joined
            (PopRes.mk none st.joined st.entries).entries
            = ⟨some p, (pop_scan cat c.rhs_col st.joined st.entries).joined,
              (pop_scan cat c.rhs_col st.joined st.entries).entries⟩ by
          show popIfNew cat c.rhs_col st.joined st.entries = _
          rw [popIfNew, if_neg hr2m, ← hf]]
        rfl
      refine ⟨{swapCond c}, Or.inr rfl, ?_, ?_⟩
      · rw [hstep]
        show planCondsMul (Plan.join .nestLoop p st.tree [swapCond c]) +
            unmarkedMul (pop_scan cat c.rhs_col st.joined st.entries).entries =
          planCondsMul st.tree + unmarkedMul st.entries + {swapCond c}
        rw [hum]
        simp only [planCondsMul, Multiset.coe_singleton]
        abel
      · rw [hstep]
        refine INV_grow tables st [c.rhs_col.tab] _ _ _
          ⟨hscan, htabs, hmk, hjoin, hndt, hsub, hnl⟩ ?_ ?_ ?_ ?_ ?_ hj het hscs ?_
        · simp only [planTabs, planTabs_of_isScan hpscan, hptab, List.singleton_append]
        · simp [nlOnly, nlOnly_of_isScan hpscan, hnl]
        · intro T hT
          rw [List.mem_singleton.mp hT]
          exact hRt
        · intro T hT
          rw [List.mem_singleton.mp hT]
          exact hr2m
        · exact List.nodup_singleton _
        · intro e he
          rw [hj]
          exact hmks e he
  · by_cases hr2m : c.rhs_col.tab ∈ st.joined
    · -- lhs new, rhs joined: pop the lhs scan, keep the condition as is
      obtain ⟨p, hf, hj, hpscan, hptab, het, hscs, hmks, hum⟩ :=
        pop_scan_spec cat c.lhs_col st.entries st.joined hscan hndents hmk
          (htabs.symm ▸ hLt) hl
      have e1 : popIfNew cat c.lhs_col st.joined st.entries =
          ⟨some p, (pop_scan cat c.lhs_col st.joined st.entries).joined,
            (pop_scan cat c.lhs_col st.joined st.entries).entries⟩ := by
        rw [popIfNew, if_neg hl, ← hf]
      have hrin : c.rhs_col.tab ∈ (pop_scan cat c.lhs_col st.joined st.entries).joined := by
        rw [hj]
        exact List.mem_append_left _ hr2m
      have hstep : joinStep cat st c =
          ⟨.join .nestLoop p st.tree [c],
            (pop_scan cat c.lhs_col st.joined st.entries).joined,
            (pop_scan cat c.lhs_col st.joined st.entries).entries⟩ := by
        unfold joinStep joinStep2
        rw [e1]
        rw [show popIfNew cat c.rhs_col
            (PopRes.mk (some p) (pop_scan cat c.lhs_col st.joined st.entries).joined
              (pop_scan cat c.lhs_col st.joined st.entries).entries).joined
            (PopRes.mk (some p) (pop_scan cat c.lhs_col st.joined st.entries).joined
              (pop_scan cat c.lhs_col st.joined st.entries).entries).entries
            = ⟨none, (pop_scan cat c.lhs_col st.joined st.entries).joined,
              (pop_scan cat c.lhs_col st.joined st.entries).entries⟩ by
          show popIfNew cat c.rhs_col (pop_scan cat c.lhs_col st.joined st.entries).joined
            (pop_scan cat c.lhs_col st.joined st.entries).entries = _
          rw [popIfNew, if_pos hrin]]
        rfl
      refine ⟨{c}, Or.inl rfl, ?_, ?_⟩
      · rw [hstep]
        show planCondsMul (Plan.join .nestLoop p st.tree [c]) +
            unmarkedMul (pop_scan cat c.lhs_col st.joined st.entries).entries =
          planCondsMul st.tree + unmarkedMul st.entries + {c}
        rw [hum]
        simp only [planCondsMul, Multiset.coe_singleton]
        abel
      · rw [hstep]
        refine INV_grow tables st [c.lhs_col.tab] _ _ _
          ⟨hscan, htabs, hmk, hjoin, hndt, hsub, hnl⟩ ?_ ?_ ?_ ?_ ?_ hj het hscs ?_
        · simp only [planTabs, planTabs_of_isScan hpscan, hptab, List.singleton_append]
        · simp [nlOnly, nlOnly_of_isScan hpscan, hnl]
        · intro T hT
          rw [List.mem_singleton.mp hT]
          exact hLt
        · intro T hT
          rw [List.mem_singleton.mp hT]
          exact hl
        · exact List.nodup_singleton _
        · intro e he
          rw [hj]
          exact hmks e he
    · -- neither side joined: pop both scans, join them above the tree
      obtain ⟨p1, hf1, hj1, hp1scan, hp1tab, het1, hscs1, hmks1, hum1⟩ :=
        pop_scan_spec cat c.lhs_col st.entries st.joined hscan hndents hmk
          (htabs.symm ▸ hLt) hl
      have e1 : popIfNew cat c.lhs_col st.joined st.entries =
          ⟨some p1, (pop_scan cat c.lhs_col st.joined st.entries).joined,
            (pop_scan cat c.lhs_col st.joined st.entries).entries⟩ := by
        rw [popIfNew, if_neg hl, ← hf1]
      have hndents1 : (entryTabs (pop_scan cat c.lhs_col st.joined st.entries).entries).Nodup := by
        rw [het1]
        exact hndents
      have hrnin : c.rhs_col.tab ∉ (pop_scan cat c.lhs_col st.joined st.entries).joined := by
        rw [hj1]
        intro hmem
        rcases List.mem_append.mp hmem with hx | hx
        · exact hr2m hx
        · exact hneq.symm (List.mem_singleton.mp hx)
      have hmks1j : ∀ e ∈ (pop_scan cat c.lhs_col st.joined st.entries).entries,
          e.marked = true ↔
            e.plan.scanTab ∈ (pop_scan cat c.lhs_col st.joined st.entries).joined := by
        rw [hj1]
        exact hmks1
      obtain ⟨p2, hf2, hj2, hp2scan, hp2tab, het2, hscs2, hmks2, hum2⟩ :=
        pop_scan_spec cat c.rhs_col (pop_scan cat c.lhs_col st.joined st.entries).entries
          (pop_scan cat c.lhs_col st.joined st.entries).joined hscs1 hndents1 hmks1j
          (by rw [het1]; exact htabs.symm ▸ hRt) hrnin
      have hstep : joinStep cat st c =
          ⟨.join .nestLoop (.join .nestLoop p1 p2 [c]) st.tree [],
            (pop_scan cat c.rhs_col (pop_scan cat c.lhs_col st.joined st.entries).joined
              (pop_scan cat c.lhs_col st.joined st.entries).entries).joined,
            (pop_scan cat c.rhs_col (pop_scan cat c.lhs_col st.joined st.entries).joined
              (pop_scan cat c.lhs_col st.joined st.entries).entries).entries⟩ := by
        unfold joinStep joinStep2
        rw [e1]
        rw [show popIfNew cat c.rhs_col
            (PopRes.mk (some p1) (pop_scan cat c.lhs_col st.joined st.entries).joined
              (pop_scan cat c.lhs_col st.joined st.entries).entries).joined
            (PopRes.mk (some p1) (pop_scan cat c.lhs_col st.joined st.entries).joined
              (pop_scan cat c.lhs_col st.joined st.entries).entries).entries
            = ⟨some p2,
              (pop_scan cat c.rhs_col (pop_scan cat c.lhs_col st.joined st.entries).joined
                (pop_scan cat c.lhs_col st.joined st.entries).entries).joined,
              (pop_scan cat c.rhs_col (pop_scan cat c.lhs_col st.joined st.entries).joined
                (pop_scan cat c.lhs_col st.joined st.entries).entries).entries⟩ by
          show popIfNew cat c.rhs_col (pop_scan cat c.lhs_col st.joined st.entries).joined
            (pop_scan cat c.lhs_col st.joined st.entries).entries = _
          rw [popIfNew, if_neg hrnin, ← hf2]]
        rfl
      refine ⟨{c}, Or.inl rfl, ?_, ?_⟩
      · rw [hstep]
        show planCondsMul (Plan.join .nestLoop (.join .nestLoop p1 p2 [c]) st.tree []) +
            unmarkedMul (pop_scan cat c.rhs_col
              (pop_scan cat c.lhs_col st.joined st.entries).joined
              (pop_scan cat c.lhs_col st.joined st.entries).entries).entries =
          planCondsMul st.tree + unmarkedMul st.entries + {c}
        rw [hum1, hum2]
        simp only [planCondsMul, Multiset.coe_singleton, Multiset.coe_nil]
        abel
      · rw [hstep]
        refine INV_grow tables st [c.lhs_col.tab, c.rhs_col.tab] _ _ _
          ⟨hscan, htabs, hmk, hjoin, hndt, hsub, hnl⟩ ?_ ?_ ?_ ?_ ?_ ?_
          (het2.trans het1) hscs2 ?_
        · simp only [planTabs, planTabs_of_isScan hp1scan, planTabs_of_isScan hp2scan,
            hp1tab, hp2tab, List.singleton_append, List.cons_append, List.nil_append]
        · simp [nlOnly, nlOnly_of_isScan hp1scan, nlOnly_of_isScan hp2scan, hnl]
        · intro T hT
          rcases List.mem_cons.mp hT with h1 | h2
          · rw [h1]; exact hLt
          · rw [List.mem_singleton.mp h2]; exact hRt
        · intro T hT
          rcases List.mem_cons.mp hT with h1 | h2
          · rw [h1]; exact hl
          · rw [List.mem_singleton.mp h2]; exact hr2m
        · simp [List.nodup_cons, hneq]
        · rw [hj2, hj1, List.append_assoc]
          rfl
        · intro e he
          rw [hj2]
          exact hmks2 e he

theorem fold_joinStep_spec (cat : Catalog) (tables : List String) (hnd : tables.Nodup) :
    ∀ (conds : List Condition) (st : BuildSt),
      INV tables st → (∀ c ∈ conds, wfCond tables c) →
      ∃ D : Multiset Condition,
        Multiset.Rel eqOrSwap (↑conds) D ∧
        planCondsMul (conds.foldl (joinStep cat) st).tree +
            unmarkedMul (conds.foldl (joinStep cat) st).entries =
          planCondsMul st.tree + unmarkedMul st.entries + D ∧
        INV tables (conds.foldl (joinStep cat) st) := by
  intro conds
  induction conds with
  | nil =>
    intro st hinv _
    refine ⟨0, Multiset.Rel.zero, ?_, hinv⟩
    rw [List.foldl_nil, add_zero]
  | cons c rest ih =>
    intro st hinv hwf
    obtain ⟨δ, hδ, hacc, hinv2⟩ :=
      joinStep_spec cat tables hnd st c hinv (hwf c (List.mem_cons_self c rest))
    obtain ⟨D, hrel, hacc2, hinv3⟩ :=
      ih (joinStep cat st c) hinv2 (fun x hx => hwf x (List.mem_cons_of_mem _ hx))
    refine ⟨δ + D, ?_, ?_, ?_⟩
    · rw [← Multiset.cons_coe]
      rcases hδ with h | h
      · rw [h, Multiset.singleton_add]
        exact Multiset.Rel.cons (Or.inl rfl) hrel
      · rw [h, Multiset.singleton_add]
        exact Multiset.Rel.cons (Or.inr rfl) hrel
    · rw [List.foldl_cons, hacc2, hacc, add_assoc]
    · simpa only [List.foldl_cons] using hinv3

theorem pop_conds_mul (tab : String) (conds : List Condition) :
    ((pop_conds tab conds).1 : Multiset Condition) + ((pop_conds tab conds).2 : Multiset Condition) =
      (conds : Multiset Condition) := by
  rw [pop_conds_eq_filter]
  rw [Multiset.coe_add, Multiset.coe_eq_coe]
  exact List.filter_append_perm _ conds

theorem scanForTable_tab (cat : Catalog) (t : String) (cs : List Condition) :
    (scanForTable cat t cs).scanTab = t := by
  unfold scanForTable
  cases get_index_cols cat t cs <;> rfl

theorem scanForTable_mul (cat : Catalog) (t : String) (cs : List Condition) :
    planCondsMul (scanForTable cat t cs) = (cs : Multiset Condition) := by
  unfold scanForTable
  cases get_index_cols cat t cs <;> rfl

theorem buildScans_tabs (cat : Catalog) :
    ∀ (tables : List String) (conds : List Condition),
      (buildScans cat tables conds).1.map Plan.scanTab = tables := by
  intro tables
  induction tables with
  | nil => intro conds; rfl
  | cons t rest ih =>
    intro conds
    simp only [buildScans, List.map_cons, scanForTable_tab]
    rw [ih]

theorem buildScans_mul (cat : Catalog) :
    ∀ (tables : List String) (conds : List Condition),
      ((buildScans cat tables conds).1.map planCondsMul).sum +
          ((buildScans cat tables conds).2 : Multiset Condition) =
        (conds : Multiset Condition) := by
  intro tables
  induction tables with
  | nil =>
    intro conds
    show (0 : Multiset Condition) + ↑conds = ↑conds
    rw [zero_add]
  | cons t rest ih =>
    intro conds
    simp only [buildScans, List.map_cons, List.sum_cons, scanForTable_mul]
    rw [add_assoc, ih, pop_conds_mul]

theorem buildScans_rem (cat : Catalog) :
    ∀ (tables : List String) (conds : List Condition),
      ∀ c ∈ (buildScans cat tables conds).2,
        c ∈ conds ∧ ∀ t ∈ tables, popPred t c = false := by
  intro tables
  induction tables with
  | nil =>
    intro conds c hc
    exact ⟨hc, fun t ht => absurd ht (List.not_mem_nil t)⟩
  | cons t rest ih =>
    intro conds c hc
    obtain ⟨hc2, hrest⟩ := ih (pop_conds t conds).2 c hc
    rw [pop_conds_eq_filter] at hc2
    have hc3 := List.mem_filter.mp hc2
    have hpp : popPred t c = false := by
      have := hc3.2
      simp only [Bool.not_eq_true'] at this
      exact this
    refine ⟨hc3.1, ?_⟩
    intro t2 ht2
    rcases List.mem_cons.mp ht2 with h1 | h2
    · rw [h1]; exact hpp
    · exact hrest t2 h2

theorem unmarkedMul_init :
    ∀ ps : List Plan, unmarkedMul (ps.map fun q => ScanEntry.mk q false) =
      (ps.map planCondsMul).sum := by
  intro ps
  induction ps with
  | nil => rfl
  | cons q rest ih =>
    simp only [List.map_cons, List.sum_cons, unmarkedMul_cons, ih]
    rw [if_neg (by simp)]

theorem entryTabs_init :
    ∀ ps : List Plan, entryTabs (ps.map fun q => ScanEntry.mk q false) = ps.map Plan.scanTab := by
  intro ps
  induction ps with
  | nil => rfl
  | cons q rest ih =>
    simp only [entryTabs, List.map_cons] at ih ⊢
    rw [ih]

theorem make_one_rel_conserve (cat : Catalog) (tables : List String) (conds0 : List Condition)
    (p : Plan) (hnd : tables.Nodup) (hemp : "" ∉ tables) (hwf : wfConds tables conds0)
    (h : make_one_rel cat ⟨true, true⟩ tables conds0 = .ok p) :
    Multiset.Rel eqOrSwap (↑conds0) (planCondsMul p) := by
  have htabs := buildScans_tabs cat tables conds0
  have hmul := buildScans_mul cat tables conds0
  have hrem := buildScans_rem cat tables conds0
  unfold make_one_rel at h
  rcases hps : buildScans cat tables conds0 with ⟨scans, rem⟩
  rw [hps] at h htabs hmul hrem
  have hremwf : ∀ c ∈ rem, wfCond tables c := by
    intro c hc
    obtain ⟨hcin, hnp⟩ := hrem c hc
    obtain ⟨hlt, hrt⟩ := hwf c hcin
    have hval : c.is_rhs_val = false := by
      by_contra hb
      rw [Bool.not_eq_false] at hb
      have hpp : popPred c.lhs_col.tab c = true := by simp [popPred, hb]
      rw [hnp c.lhs_col.tab hlt] at hpp
      exact Bool.false_ne_true hpp
    have hne2 : c.lhs_col.tab ≠ c.rhs_col.tab := by
      intro he
      have hpp : popPred c.lhs_col.tab c = true := by simp [popPred, he]
      rw [hnp c.lhs_col.tab hlt] at hpp
      exact Bool.false_ne_true hpp
    exact ⟨hlt, hrt hval, hne2⟩
  rcases scans with _ | ⟨s0, srest⟩
  · simp [make_one_rel_core] at h
  · rcases rem with _ | ⟨c, rest⟩
    · -- no remaining join condition
      simp only [make_one_rel_core] at h
      split_ifs at h with hlen
      · -- a single table: its scan is the plan
        have hsr : srest = [] := by
          have hlen2 := congrArg List.length htabs
          simp only [List.length_map, List.length_cons, hlen] at hlen2
          exact List.eq_nil_of_length_eq_zero (by omega)
        subst hsr
        rw [← Except.ok.inj h]
        have hmul2 : planCondsMul s0 = (conds0 : Multiset Condition) := by
          simpa using hmul
        rw [← hmul2]
        exact rel_eqOrSwap_refl _
      · -- several tables, all joined by the cartesian leftover loop
        rw [← Except.ok.inj h, leftoverJoins_condsMul]
        have hmm : unmarkedMul (markFirst ((s0 :: srest).map fun q => ScanEntry.mk q false)) =
            (srest.map planCondsMul).sum := by
          simp only [List.map_cons, markFirst]
          rw [unmarkedMul_cons, if_pos rfl, zero_add, unmarkedMul_init]
        rw [hmm]
        have hmul2 : planCondsMul s0 + (srest.map planCondsMul).sum =
            (conds0 : Multiset Condition) := by
          have := hmul
          simp only [List.map_cons, List.sum_cons, Multiset.coe_nil, add_zero] at this
          exact this
        rw [hmul2]
        exact rel_eqOrSwap_refl _
    · -- at least one join condition
      simp only [make_one_rel_core] at h
      split_ifs at h with hlen
      · exfalso
        obtain ⟨hclt, hcrt, hcne⟩ := hremwf c (List.mem_cons_self c rest)
        obtain ⟨a, ha⟩ := List.length_eq_one.mp hlen
        rw [ha] at hclt hcrt
        exact hcne ((List.mem_singleton.mp hclt).trans (List.mem_singleton.mp hcrt).symm)
      · obtain ⟨hclt, hcrt, hcne⟩ := hremwf c (List.mem_cons_self c rest)
        have hent_scan : ∀ e ∈ (s0 :: srest).map (fun q => ScanEntry.mk q false),
            e.plan.isScan = true := by
          intro e he
          obtain ⟨q, hq, hq2⟩ := List.mem_map.mp he
          rw [← hq2]
          have := buildScans_scan cat tables conds0
          rw [hps] at this
          exact this q hq
        have htabs0 : entryTabs ((s0 :: srest).map fun q => ScanEntry.mk q false) = tables := by
          rw [entryTabs_init]
          exact htabs
        have hnd0 : (entryTabs ((s0 :: srest).map fun q => ScanEntry.mk q false)).Nodup := by
          rw [htabs0]; exact hnd
        have hmk0 : ∀ e ∈ (s0 :: srest).map (fun q => ScanEntry.mk q false),
            e.marked = true ↔ e.plan.scanTab ∈ List.replicate tables.length "" := by
          intro e he
          obtain ⟨q, hq, hq2⟩ := List.mem_map.mp he
          constructor
          · intro hmm
            rw [← hq2] at hmm
            simp at hmm
          · intro hmm
            exfalso
            have htabm : e.plan.scanTab ∈ tables := by
              rw [← htabs0]
              exact List.mem_map_of_mem _ he
            have := List.mem_replicate.mp hmm
            exact hemp (this.2 ▸ htabm)
        have hnotj : ∀ T : String, T ∈ tables → T ∉ List.replicate tables.length "" := by
          intro T hT hmem
          exact hemp ((List.mem_replicate.mp hmem).2 ▸ hT)
        obtain ⟨p1, hf1, hj1, hp1scan, hp1tab, het1, hscs1, hmks1, hum1⟩ :=
          pop_scan_spec cat c.lhs_col ((s0 :: srest).map fun q => ScanEntry.mk q false)
            (List.replicate tables.length "") hent_scan hnd0 hmk0
            (htabs0.symm ▸ hclt) (hnotj _ hclt)
        rw [make_one_rel_pop1] at h
        rw [hf1] at h
        simp only [make_one_rel_found1] at h
        have hnd1 : (entryTabs (pop_scan cat c.lhs_col (List.replicate tables.length "")
            ((s0 :: srest).map fun q => ScanEntry.mk q false)).entries).Nodup := by
          rw [het1]; exact hnd0
        have hrnin : c.rhs_col.tab ∉ (pop_scan cat c.lhs_col (List.replicate tables.length "")
            ((s0 :: srest).map fun q => ScanEntry.mk q false)).joined := by
          rw [hj1]
          intro hmem
          rcases List.mem_append.mp hmem with hx | hx
          · exact hnotj _ hcrt hx
          · exact hcne.symm (List.mem_singleton.mp hx)
        have hmks1j : ∀ e ∈ (pop_scan cat c.lhs_col (List.replicate tables.length "")
            ((s0 :: srest).map fun q => ScanEntry.mk q false)).entries,
            e.marked = true ↔ e.plan.scanTab ∈
              (pop_scan cat c.lhs_col (List.replicate tables.length "")
                ((s0 :: srest).map fun q => ScanEntry.mk q false)).joined := by
          rw [hj1]
          exact hmks1
        obtain ⟨p2, hf2, hj2, hp2scan, hp2tab, het2, hscs2, hmks2, hum2⟩ :=
          pop_scan_spec cat c.rhs_col
            (pop_scan cat c.lhs_col (List.replicate tables.length "")
              ((s0 :: srest).map fun q => ScanEntry.mk q false)).entries
            (pop_scan cat c.lhs_col (List.replicate tables.length "")
              ((s0 :: srest).map fun q => ScanEntry.mk q false)).joined
            hscs1 hnd1 hmks1j (by rw [het1]; exact htabs0.symm ▸ hcrt) hrnin
        rw [make_one_rel_pop2] at h
        rw [hf2] at h
        simp only [make_one_rel_found3] at h
        rw [show firstJoin ⟨true, true⟩ p1 p2 c = .ok (.join .nestLoop p1 p2 [c]) from rfl] at h
        simp only [make_one_rel_built] at h
        rw [← Except.ok.inj h]
        have hinv0 : INV tables ⟨.join .nestLoop p1 p2 [c],
            (pop_scan cat c.rhs_col
              (pop_scan cat c.lhs_col (List.replicate tables.length "")
                ((s0 :: srest).map fun q => ScanEntry.mk q false)).joined
              (pop_scan cat c.lhs_col (List.replicate tables.length "")
                ((s0 :: srest).map fun q => ScanEntry.mk q false)).entries).joined,
            (pop_scan cat c.rhs_col
              (pop_scan cat c.lhs_col (List.replicate tables.length "")
                ((s0 :: srest).map fun q => ScanEntry.mk q false)).joined
              (pop_scan cat c.lhs_col (List.replicate tables.length "")
                ((s0 :: srest).map fun q => ScanEntry.mk q false)).entries).entries⟩ := by
          refine ⟨hscs2, (het2.trans het1).trans htabs0, ?_, ?_, ?_, ?_, ?_⟩
          · intro e he
            rw [hj2]
            exact hmks2 e he
          · intro T hT
            have hTne : ¬(T = "") := fun he => hemp (he ▸ hT)
            show T ∈ planTabs (.join .nestLoop p1 p2 [c]) ↔ _
            rw [hj2, hj1]
            simp [planTabs, planTabs_of_isScan hp1scan, planTabs_of_isScan hp2scan,
              hp1tab, hp2tab, List.mem_append, List.mem_replicate, hTne]
          · show (planTabs (.join .nestLoop p1 p2 [c])).Nodup
            simp [planTabs, planTabs_of_isScan hp1scan, planTabs_of_isScan hp2scan,
              hp1tab, hp2tab, List.nodup_cons, hcne]
          · intro T hT
            have hT2 : T ∈ planTabs (.join .nestLoop p1 p2 [c]) := hT
            simp [planTabs, planTabs_of_isScan hp1scan, planTabs_of_isScan hp2scan,
              hp1tab, hp2tab] at hT2
            rcases hT2 with h1 | h2
            · exact h1 ▸ hclt
            · exact h2 ▸ hcrt
          · show nlOnly (.join .nestLoop p1 p2 [c]) = true
            simp [nlOnly, nlOnly_of_isScan hp1scan, nlOnly_of_isScan hp2scan]
        obtain ⟨D, hrel, hacc, _⟩ := fold_joinStep_spec cat tables hnd rest _ hinv0
          (fun x hx => hremwf x (List.mem_cons_of_mem _ hx))
        have hstart : (conds0 : Multiset Condition) =
            ((s0 :: srest).map planCondsMul).sum + (c ::ₘ (rest : Multiset Condition)) := by
          rw [← hmul, Multiset.cons_coe]
        have hes0 : ((s0 :: srest).map planCondsMul).sum =
            unmarkedMul (pop_scan cat c.rhs_col
              (pop_scan cat c.lhs_col (List.replicate tables.length "")
                ((s0 :: srest).map fun q => ScanEntry.mk q false)).joined
              (pop_scan cat c.lhs_col (List.replicate tables.length "")
                ((s0 :: srest).map fun q => ScanEntry.mk q false)).entries).entries +
              planCondsMul p2 + planCondsMul p1 := by
          rw [← unmarkedMul_init, hum1, hum2]
        have hfinal : planCondsMul (afterFirstJoin cat rest ⟨.join .nestLoop p1 p2 [c],
            (pop_scan cat c.rhs_col
              (pop_scan cat c.lhs_col (List.replicate tables.length "")
                ((s0 :: srest).map fun q => ScanEntry.mk q false)).joined
              (pop_scan cat c.lhs_col (List.replicate tables.length "")
                ((s0 :: srest).map fun q => ScanEntry.mk q false)).entries).joined,
            (pop_scan cat c.rhs_col
              (pop_scan cat c.lhs_col (List.replicate tables.length "")
                ((s0 :: srest).map fun q => ScanEntry.mk q false)).joined
              (pop_scan cat c.lhs_col (List.replicate tables.length "")
                ((s0 :: srest).map fun q => ScanEntry.mk q false)).entries).entries⟩) =
            ((s0 :: srest).map planCondsMul).sum + (c ::ₘ D) := by
          unfold afterFirstJoin
          rw [leftoverJoins_condsMul, hacc]
          show planCondsMul (.join .nestLoop p1 p2 [c]) + unmarkedMul _ + D = _
          rw [hes0]
          simp only [planCondsMul, Multiset.coe_singleton]
          rw [← Multiset.singleton_add]
          abel
        rw [hstart, hfinal]
        exact Multiset.Rel.add (rel_eqOrSwap_refl _) (Multiset.Rel.cons (Or.inl rfl) hrel)

/-- C4 counterexample: under default knobs the three-way query
`r.x=s.x AND s.y=u.y` yields a plan whose condition multiset contains the
side-swapped `u.y=s.y` instead of `s.y=u.y`, so the multiset union does not
equal the starting conjuncts; and with only sort-merge enabled the two-table
query `r.x=s.x AND r.y=s.z` silently drops the second conjunct (the push into
the sort-wrapped tree fails), so a conjunct is lost outright. -/
theorem c4_counterexample :
    make_one_rel catNone ⟨true, true⟩ ["r", "s", "u"] [cRS, cSU] =
      .ok (.join .nestLoop (.scan .seqScan "u" [] [])
        (.join .nestLoop (.scan .seqScan "r" [] []) (.scan .seqScan "s" [] []) [cRS])
        [swapCond cSU]) ∧
    planCondsMul (.join .nestLoop (.scan .seqScan "u" [] [])
        (.join .nestLoop (.scan .seqScan "r" [] []) (.scan .seqScan "s" [] []) [cRS])
        [swapCond cSU]) ≠ (↑[cRS, cSU] : Multiset Condition) ∧
    make_one_rel catNone ⟨false, true⟩ ["r", "s"] [cRS, cRS2] =
      .ok (.join .sortMerge (.sort (.scan .seqScan "r" [] []) [⟨"r", "x"⟩] false)
        (.sort (.scan .seqScan "s" [] []) [⟨"s", "x"⟩] false) [cRS]) ∧
    planCondsMul (.join .sortMerge (.sort (.scan .seqScan "r" [] []) [⟨"r", "x"⟩] false)
        (.sort (.scan .seqScan "s" [] []) [⟨"s", "x"⟩] false) [cRS]) = {cRS} ∧
    cRS2 ∉ planCondsMul (.join .sortMerge (.sort (.scan .seqScan "r" [] []) [⟨"r", "x"⟩] false)
        (.sort (.scan .seqScan "s" [] []) [⟨"s", "x"⟩] false) [cRS]) := by decide

/-- C4 (amended): for a well-formed SELECT (distinct non-empty table names,
every conjunct's tables among the query tables) planned under the default
NestLoop knobs, the multiset of all conditions attached to the plan produced
by `make_one_rel` — scans' fed conditions plus joins' condition lists —
corresponds one-to-one to the starting conjuncts, each appearing exactly
once, either verbatim or side-swapped with the operator inverted; with only
sort-merge enabled a conjunct between two already-joined tables can be lost. -/
theorem c4_theorem :
    ∀ (cat : Catalog) (tables : List String) (conds0 : List Condition) (p : Plan),
      tables.Nodup → "" ∉ tables → wfConds tables conds0 →
      make_one_rel cat ⟨true, true⟩ tables conds0 = .ok p →
      Multiset.Rel eqOrSwap (↑conds0) (planCondsMul p) :=
  fun cat tables conds0 p hnd hemp hwf h =>
    make_one_rel_conserve cat tables conds0 p hnd hemp hwf h

/-- C4 witness: the conservation statement applied to the concrete three-way
query under default knobs. -/
theorem c4_witness :
    Multiset.Rel eqOrSwap (↑[cRS, cSU])
      (planCondsMul (.join .nestLoop (.scan .seqScan "u" [] [])
        (.join .nestLoop (.scan .seqScan "r" [] []) (.scan .seqScan "s" [] []) [cRS])
        [swapCond cSU])) :=
  c4_theorem catNone ["r", "s", "u"] [cRS, cSU]
    (.join .nestLoop (.scan .seqScan "u" [] [])
      (.join .nestLoop (.scan .seqScan "r" [] []) (.scan .seqScan "s" [] []) [cRS])
      [swapCond cSU])
    (by decide) (by decide) (by unfold wfConds; decide) (by decide)

end DB2024
